import Mathlib

set_option linter.unusedVariables false

namespace NjsCrypt

/-!
Shallow embedding of the njsfscrypt encrypted overlay filesystem:
the encrypted store `CryptFS` (header layout, CTR body cipher, the
block-structured read and write loops, truncate/ftruncate, getattr),
the GCM name codec with its base64url transport, the `VirtualFS`
dispatcher (longest-prefix resolution and per-handle statistics) and
the CLI argument handling.

Bytes are modelled as `List Nat`; a backing file is its byte list, with
POSIX positional read/write/truncate semantics.  The AES primitives are
abstracted as keystream functions (`ks`, `gks`): every theorem below is
universally quantified over them, hence holds for real AES-256 under
every 256-bit key.
-/

abbrev Bytes := List Nat

def AES_BLOCK : Nat := 16
def NONCE_SIZE : Nat := 16
def META_SIZE : Nat := 8 + NONCE_SIZE

def zeros (n : Nat) : Bytes := List.replicate n 0

/-- Positional read from a backing file: up to `len` bytes from offset
`pos`; a read past the end is short (`fh.read` semantics). -/
def fsRead (file : Bytes) (len pos : Nat) : Bytes := (file.drop pos).take len

/-- Positional write to a backing file: extends the file, filling a hole
with zero bytes when `pos` is past the end (`fh.write` semantics). -/
def fsWrite (file : Bytes) (buf : Bytes) (pos : Nat) : Bytes :=
  file.take pos ++ zeros (pos - file.length) ++ buf ++ file.drop (pos + buf.length)

/-- `fh.truncate n`: shrink to `n` bytes, or extend with zero bytes. -/
def fsTruncate (file : Bytes) (n : Nat) : Bytes := file.take n ++ zeros (n - file.length)

/-- `Buffer.copy` of `src` into `dst` at offset `dstOff`: copies
`min src.length (dst.length - dstOff)` bytes and never extends `dst`. -/
def copyInto (dst : Bytes) (dstOff : Nat) (src : Bytes) : Bytes :=
  dst.take dstOff ++ src.take (dst.length - dstOff) ++
    dst.drop (dstOff + min src.length (dst.length - dstOff))

/-- Zero-fill up to length `n`: a short read into `Buffer.alloc(n)`
followed by `encBuf.fill(0, bytesRead)`. -/
def padTo (n : Nat) (xs : Bytes) : Bytes := xs ++ zeros (n - xs.length)

/-- Big-endian unsigned value of a byte list (`readBigUInt64BE` on an
8-byte slice). -/
def beU (l : Bytes) : Nat := l.foldl (fun a b => a * 256 + b) 0

/-- `readBigInt64BE`: two's-complement signed value of an 8-byte slice. -/
def beI (l : Bytes) : Int :=
  if beU l < 2 ^ 63 then (beU l : Int) else (beU l : Int) - 2 ^ 64

/-- Big-endian byte expansion: `n` bytes of `v % 256^n`. -/
def natToBE : Nat → Nat → Bytes
  | 0, _ => []
  | n+1, v => natToBE n (v / 256) ++ [v % 256]

/-- `writeBigInt64BE`: the 8 two's-complement bytes of `v`.  Meaningful
for `-2^63 ≤ v < 2^63` (outside that range Node throws; every caller in
the model guards the range explicitly). -/
def beBytes8 (v : Int) : Bytes := natToBE 8 (v.emod (2 ^ 64)).toNat

/-! ### CTR cipher (`_deriveCounterIV`, `_encryptCTR`, `_decryptCTR`)

`ks iv j` abstracts byte `j` (`j < 16`) of the AES-256 encryption of the
128-bit counter-block value `iv` under the mount key. -/

def ctrXorFrom (ks : Nat → Nat → Nat) (iv : Nat) : Nat → Bytes → Bytes
  | _, [] => []
  | j, b :: rest =>
    Nat.xor b (ks ((iv + j / 16) % 2 ^ 128) (j % 16)) :: ctrXorFrom ks iv (j + 1) rest

/-- Node `aes-256-ctr` applied to a whole buffer: XOR with the keystream;
the 128-bit IV is incremented once per 16-byte block. -/
def ctrXor (ks : Nat → Nat → Nat) (iv : Nat) (data : Bytes) : Bytes :=
  ctrXorFrom ks iv 0 data

/-- `CryptFS._deriveCounterIV`: copies the nonce and adds the block
counter big-endian into its low 8 bytes; `writeBigUInt64BE` throws when
the sum overflows 64 bits, modelled as `none`. -/
def deriveCounterIV (nonce : Bytes) (c : Nat) : Option Nat :=
  let hi := beU (nonce.take 8)
  let lo := beU ((nonce.drop 8).take 8)
  if lo + c < 2 ^ 64 then some (hi * 2 ^ 64 + (lo + c)) else none

/-- `CryptFS._encryptCTR`. -/
def encryptCTR (ks : Nat → Nat → Nat) (nonce : Bytes) (c : Nat) (data : Bytes) :
    Option Bytes :=
  (deriveCounterIV nonce c).map (fun iv => ctrXor ks iv data)

/-- `CryptFS._decryptCTR`: CTR decryption derives the same IV and applies
the same keystream XOR. -/
def decryptCTR (ks : Nat → Nat → Nat) (nonce : Bytes) (c : Nat) (data : Bytes) :
    Option Bytes :=
  encryptCTR ks nonce c data

/-! ### `CryptFS.read` -/

/-- The block loop of `CryptFS.read`: `cnt` remaining blocks starting at
block index `k`; `out` is the output buffer (allocated `toRead` long) and
`done` the write cursor into it. -/
def cryptReadLoop (ks : Nat → Nat → Nat) (B : Nat) (file nonce : Bytes)
    (off toRead : Nat) : Nat → Nat → Bytes → Nat → Option Bytes
  | 0, _, out, _ => some out
  | cnt + 1, k, out, done =>
    let bs := k * B
    let be := bs + B
    let rs := max off bs
    let re := min (off + toRead) be
    let n := re - rs
    let o := rs - bs
    let cbs := bs / AES_BLOCK * AES_BLOCK
    let cpos := META_SIZE + cbs
    let need := be - cbs
    let crl := (need + (AES_BLOCK - 1)) / AES_BLOCK * AES_BLOCK
    let encBuf := padTo crl (fsRead file crl cpos)
    match decryptCTR ks nonce (cbs / AES_BLOCK) encBuf with
    | none => none
    | some plain =>
      cryptReadLoop ks B file nonce off toRead cnt (k + 1)
        (copyInto out done ((plain.drop o).take n)) (done + n)

/-- `CryptFS.read path fd length offset` on the backing `file` (the fd is
assumed valid; `B` is the configured plaintext block size). -/
def cryptRead (ks : Nat → Nat → Nat) (B : Nat) (file : Bytes) (len off : Nat) :
    Option Bytes :=
  if file.length < META_SIZE then some [] else
  let fileSize := beI (fsRead file 8 0)
  let nonce := (fsRead file META_SIZE 0).drop 8
  if fileSize ≤ (off : Int) then some [] else
  let toRead := min len (fileSize - (off : Int)).toNat
  let firstB := off / B
  let lastB : Int := ((off : Int) + toRead - 1).fdiv (B : Int)
  cryptReadLoop ks B file nonce off toRead ((lastB - firstB + 1).toNat) firstB
    (zeros toRead) 0

/-! ### `CryptFS.write` -/

/-- A raw positional write against the backing file, recorded so that
intra-operation ordering (body before size field) is observable. -/
inductive FsEvent where
  | write (pos : Nat) (data : Bytes)
deriving DecidableEq

def applyEvent (file : Bytes) : FsEvent → Bytes
  | .write pos data => fsWrite file data pos

/-- The header buffer built by `create` and by the lazy init in `write`:
`Buffer.alloc(24)` with `writeBigInt64BE(0n, 0)` and the 16 random nonce
bytes copied in at offset 8. -/
def createHeader (rnd : Bytes) : Bytes := copyInto (zeros META_SIZE) 8 rnd

/-- The block loop of `CryptFS.write`: threads the backing file (each
iteration reads ciphertext the previous one may have written), the event
trace and `bytesWritten`. -/
def cryptWriteLoop (ks : Nat → Nat → Nat) (B : Nat) (nonce buf : Bytes)
    (off wend : Nat) : Nat → Nat → Bytes → List FsEvent → Nat →
    Option (Bytes × List FsEvent × Nat)
  | 0, _, f, tr, bw => some (f, tr, bw)
  | cnt + 1, k, f, tr, bw =>
    let bs := k * B
    let be := bs + B
    let ws := max off bs
    let we := min wend be
    let n := we - ws
    let wo := ws - bs
    let cbs := bs / AES_BLOCK * AES_BLOCK
    let cpos := META_SIZE + cbs
    let need := max be wend - cbs
    let crl := (need + (AES_BLOCK - 1)) / AES_BLOCK * AES_BLOCK
    let encBuf := padTo crl (fsRead f crl cpos)
    match decryptCTR ks nonce (cbs / AES_BLOCK) encBuf with
    | none => none
    | some plain0 =>
      let plain1 := if plain0.length < crl then padTo crl plain0 else plain0
      let plain2 := copyInto plain1 wo ((buf.drop bw).take n)
      match encryptCTR ks nonce (cbs / AES_BLOCK) plain2 with
      | none => none
      | some encNew =>
        cryptWriteLoop ks B nonce buf off wend cnt (k + 1)
          (fsWrite f encNew cpos) (tr ++ [FsEvent.write cpos encNew]) (bw + n)

/-- `CryptFS.write path fd buffer offset` on the backing `file`.  `rnd`
is the fresh random nonce drawn when the header is lazily initialised.
Returns the new backing file, the ordered trace of raw writes, and the
returned byte count. -/
def cryptWrite (ks : Nat → Nat → Nat) (B : Nat) (rnd : Bytes) (file buf : Bytes)
    (off : Nat) : Option (Bytes × List FsEvent × Nat) :=
  let wend := off + buf.length
  let fresh := file.length < META_SIZE
  let f0 := if fresh then fsWrite file (createHeader rnd) 0 else file
  let tr0 : List FsEvent := if fresh then [FsEvent.write 0 (createHeader rnd)] else []
  let fileSize : Int := if fresh then 0 else beI (fsRead file 8 0)
  let nonce := if fresh then rnd else (fsRead file META_SIZE 0).drop 8
  let newFileSize : Int := max fileSize (wend : Int)
  let firstB := off / B
  let lastB : Int := ((wend : Int) - 1).fdiv (B : Int)
  match cryptWriteLoop ks B nonce buf off wend ((lastB - firstB + 1).toNat) firstB
      f0 tr0 0 with
  | none => none
  | some (f1, tr1, bw) =>
    if -(2 ^ 63) ≤ newFileSize ∧ newFileSize < 2 ^ 63 then
      some (fsWrite f1 (beBytes8 newFileSize) 0,
            tr1 ++ [FsEvent.write 0 (beBytes8 newFileSize)], bw)
    else none

/-! ### `CryptFS.create`, `truncate`, `ftruncate`, `getattr` -/

/-- `CryptFS.create`: opens the backing path with O_CREAT|O_TRUNC|O_RDWR
(so its content becomes empty) and writes a fresh header (size 0, random
nonce) at offset 0. -/
def cryptCreate (rnd : Bytes) : Bytes := fsWrite ([] : Bytes) (createHeader rnd) 0

/-- `CryptFS.truncate path size`: writes the new size into the header,
then unconditionally calls `fh.truncate(META_SIZE + ceil(size/16)*16)`.
Node clamps a negative truncate length to 0. -/
def cryptTruncate (file : Bytes) (size : Int) : Option Bytes :=
  if -(2 ^ 63) ≤ size ∧ size < 2 ^ 63 then
    let f1 := fsWrite file (beBytes8 size) 0
    let blocks : Int := (size + ((AES_BLOCK : Int) - 1)).fdiv (AES_BLOCK : Int)
    let newPhys : Int := (META_SIZE : Int) + blocks * (AES_BLOCK : Int)
    some (fsTruncate f1 newPhys.toNat)
  else none

inductive FuseErr where
  | EBADF | EINVAL | ERANGE
deriving DecidableEq

/-- `CryptFS.ftruncate path fd size` (the fd is assumed valid): rejects a
negative size with EINVAL, writes the new size into the header, and
shrinks the backing file only when it is longer than the new physical
size.  `ERANGE` models the `writeBigInt64BE` RangeError. -/
def cryptFtruncate (file : Bytes) (size : Int) : Except FuseErr Bytes :=
  if size < 0 then .error .EINVAL
  else if size < 2 ^ 63 then
    let f1 := fsWrite file (beBytes8 size) 0
    let blocks : Int := (size + ((AES_BLOCK : Int) - 1)).fdiv (AES_BLOCK : Int)
    let newPhys : Int := (META_SIZE : Int) + blocks * (AES_BLOCK : Int)
    .ok (if newPhys < (f1.length : Int) then fsTruncate f1 newPhys.toNat else f1)
  else .error .ERANGE

/-- The logical size reported by `CryptFS.getattr` for a non-directory
backing file: the 8-byte header field when the physical size is at least
`META_SIZE`, otherwise 0 (the header is not read at all). -/
def getattrFileSize (file : Bytes) : Int :=
  if META_SIZE ≤ file.length then beI (fsRead file 8 0) else 0

/-! ### Operation sequences over one encrypted file (for the closed-file
invariant) -/

inductive CfsOp where
  | create (rnd : Bytes)
  | write (rnd : Bytes) (buf : Bytes) (off : Nat)
  | truncate (size : Int)

def stepOp (ks : Nat → Nat → Nat) (B : Nat) (file : Bytes) : CfsOp → Option Bytes
  | .create rnd => some (cryptCreate rnd)
  | .write rnd buf off => (cryptWrite ks B rnd file buf off).map (·.1)
  | .truncate size => cryptTruncate file size

def runOps (ks : Nat → Nat → Nat) (B : Nat) : Bytes → List CfsOp → Option Bytes
  | file, [] => some file
  | file, op :: ops =>
    match stepOp ks B file op with
    | none => none
    | some f' => runOps ks B f' ops

/-- Well-formed operation arguments: nonces are `crypto.randomBytes(16)`
and truncate sizes are the non-negative values the kernel passes down. -/
def opWF : CfsOp → Prop
  | .create rnd => rnd.length = NONCE_SIZE
  | .write rnd _ _ => rnd.length = NONCE_SIZE
  | .truncate size => 0 ≤ size

/-! ### Name codec (`_encodeName` / `_decodeName`)

`gks i` abstracts byte `i` of the AES-256-GCM keystream under the mount
key and the fixed all-zero 12-byte nonce; `tagFn` abstracts the GCM
authentication tag of a ciphertext (16 bytes). -/

def gXorFrom (gks : Nat → Nat) : Nat → Bytes → Bytes
  | _, [] => []
  | i, b :: rest => Nat.xor b (gks i) :: gXorFrom gks (i + 1) rest

def gXor (gks : Nat → Nat) (data : Bytes) : Bytes := gXorFrom gks 0 data

def b64Alphabet : List Char :=
  "ABCDEFGHIJKLMNOPQRSTUVWXYZabcdefghijklmnopqrstuvwxyz0123456789+/".data

def b64Char (n : Nat) : Char := b64Alphabet.getD n 'A'

/-- Standard base64 with '=' padding (`buf.toString('base64')`). -/
def b64Encode : Bytes → List Char
  | [] => []
  | [a] => [b64Char (a / 4), b64Char (a % 4 * 16), '=', '=']
  | [a, b] => [b64Char (a / 4), b64Char (a % 4 * 16 + b / 16), b64Char (b % 16 * 4), '=']
  | a :: b :: c :: rest =>
    b64Char (a / 4) :: b64Char (a % 4 * 16 + b / 16) :: b64Char (b % 16 * 4 + c / 64) ::
      b64Char (c % 64) :: b64Encode rest

def urlSafeChar (c : Char) : Char := if c = '+' then '-' else if c = '/' then '_' else c

def unUrlSafeChar (c : Char) : Char := if c = '-' then '+' else if c = '_' then '/' else c

/-- Drop the trailing run of '=' characters (`.replace(/[=]+$/u, '')`). -/
def stripEq : List Char → List Char
  | [] => []
  | c :: rest =>
    let acc := stripEq rest
    if acc = [] then (if c = '=' then [] else [c]) else c :: acc

def b64CharVal (c : Char) : Option Nat :=
  (List.range 64).find? (fun n => b64Char n = c)

/-- Node `Buffer.from(str, 'base64')`: lenient 6-bit-group decode;
non-alphabet characters (including '=') are skipped and a lone trailing
character contributes nothing. -/
def b64DecodeVals : List Nat → Bytes
  | [] => []
  | [_] => []
  | [x, y] => [x * 4 + y / 16]
  | [x, y, z] => [x * 4 + y / 16, y % 16 * 16 + z / 4]
  | x :: y :: z :: w :: rest =>
    (x * 4 + y / 16) :: (y % 16 * 16 + z / 4) :: (z % 4 * 64 + w) :: b64DecodeVals rest

def b64Decode (s : List Char) : Bytes := b64DecodeVals (s.filterMap b64CharVal)

/-- `CryptFS._encodeName`: GCM-encrypt the UTF-8 bytes of the name,
prepend the 16-byte tag, base64, URL-safe replacements, strip the
trailing '='. -/
def encodeName (gks : Nat → Nat) (tagFn : Bytes → Bytes) (name : Bytes) : List Char :=
  let encrypted := gXor gks name
  stripEq ((b64Encode (tagFn encrypted ++ encrypted)).map urlSafeChar)

/-- `CryptFS._decodeName`: reverse the URL-safe replacements, base64
decode, split off the 16-byte tag, verify it (`decipher.final()` throws
on mismatch, modelled as `none`), decrypt. -/
def decodeName (gks : Nat → Nat) (tagFn : Bytes → Bytes) (encName : List Char) :
    Option Bytes :=
  let buf := b64Decode (encName.map unUrlSafeChar)
  let tag := buf.take 16
  let encrypted := buf.drop 16
  if tagFn encrypted = tag then some (gXor gks encrypted) else none

/-! ### `VirtualFS` dispatcher: prefix resolution -/

structure VRegEntry where
  pattern : List Char
  inst : Nat
deriving DecidableEq

/-- The source text of `new RegExp('^' + pattern.replace(/\//gu, '\\/'))`,
which `_resolve` sorts on and compares against the literal `'^\/$'`. -/
def regexSource (p : List Char) : List Char :=
  '^' :: p.flatMap (fun c => if c = '/' then ['\\', '/'] else [c])

def sourceLen (e : VRegEntry) : Nat := (regexSource e.pattern).length

/-- One insertion of a stable descending sort by `sourceLen` — the JS
stable `Array.prototype.sort` under the comparator
`b.pattern.source.length - a.pattern.source.length`. -/
def insertDesc (x : VRegEntry) : List VRegEntry → List VRegEntry
  | [] => [x]
  | y :: ys => if sourceLen x ≤ sourceLen y then y :: insertDesc x ys else x :: y :: ys

def sortDesc (l : List VRegEntry) : List VRegEntry :=
  l.foldl (fun acc x => insertDesc x acc) []

/-- Characters with a regex meaning.  String patterns made only of other
characters are matched literally by the anchored regex (`register` only
escapes '/'). -/
def regexMeta : List Char :=
  ['\\', '^', '$', '.', '|', '?', '*', '+', '(', ')', '[', ']',
   Char.ofNat 123, Char.ofNat 125]

def LiteralPat (p : List Char) : Prop := ∀ c ∈ p, c ∉ regexMeta

/-- `VirtualFS._resolve` for string-registered patterns: sort by
descending regex-source length (stable), take the first whose anchored
regex matches — for a metacharacter-free pattern that is exactly "the
pattern is a prefix of the path", with `match[0]` the pattern itself —
strip the matched prefix and re-prepend '/' when the remainder does not
start with one. -/
def vfsResolve (reg : List VRegEntry) (path : List Char) : Option (Nat × List Char) :=
  match (sortDesc reg).find? (fun e => e.pattern.isPrefixOf path) with
  | none => none
  | some e =>
    if regexSource e.pattern = "^\\/$".data then
      some (e.inst, path)
    else
      let rel := path.drop e.pattern.length
      some (e.inst, if rel.head? = some '/' then rel else '/' :: rel)

/-! ### `VirtualFS` dispatcher: per-handle statistics -/

structure VirtualFSStats where
  readBytes : Nat
  writeBytes : Nat
  readBytesDuration : Nat
  writeBytesDuration : Nat
  readBytesTotal : Nat
  writeBytesTotal : Nat
  readTimeMs : Nat
  writeTimeMs : Nat
  readOps : Nat
  writeOps : Nat
deriving DecidableEq

def zeroStats : VirtualFSStats := ⟨0, 0, 0, 0, 0, 0, 0, 0, 0, 0⟩

/-- The dispatcher's `Map` keyed by the (collision-free) template string
`path + ':' + fd`, modelled as the pair; insertion order preserved, `set`
replaces in place. -/
abbrev StatsMap := List ((String × Nat) × VirtualFSStats)

def mapSet : StatsMap → String × Nat → VirtualFSStats → StatsMap
  | [], k, v => [(k, v)]
  | (k', v') :: rest, k, v =>
    if k' = k then (k, v) :: rest else (k', v') :: mapSet rest k v

def mapGet : StatsMap → String × Nat → Option VirtualFSStats
  | [], _ => none
  | (k', v') :: rest, k => if k' = k then some v' else mapGet rest k

def mapDelete : StatsMap → String × Nat → StatsMap
  | [], _ => []
  | (k', v') :: rest, k => if k' = k then rest else (k', v') :: mapDelete rest k

/-- `VirtualFS._open`: after the backend open succeeds, a zeroed
statistics record is stored under `(path, fd)`. -/
def vfsOpenStats (m : StatsMap) (path : String) (fd : Nat) : StatsMap :=
  mapSet m (path, fd) zeroStats

/-- `VirtualFS._create`: calls the backend and returns the fd to the
host; it does not touch the statistics map. -/
def vfsCreateStats (m : StatsMap) (path : String) (fd : Nat) : StatsMap := m

/-- `VirtualFS._read` statistics update (`dur` is the measured wall
time); a missing record is left missing. -/
def vfsReadStats (m : StatsMap) (path : String) (fd : Nat) (bytes dur : Nat) : StatsMap :=
  match mapGet m (path, fd) with
  | none => m
  | some s =>
    mapSet m (path, fd)
      { s with readOps := s.readOps + 1, readBytes := bytes,
               readBytesDuration := dur, readBytesTotal := s.readBytesTotal + bytes,
               readTimeMs := s.readTimeMs + dur }

/-- `VirtualFS._write` statistics update. -/
def vfsWriteStats (m : StatsMap) (path : String) (fd : Nat) (bytes dur : Nat) : StatsMap :=
  match mapGet m (path, fd) with
  | none => m
  | some s =>
    mapSet m (path, fd)
      { s with writeOps := s.writeOps + 1, writeBytes := bytes,
               writeBytesDuration := dur, writeBytesTotal := s.writeBytesTotal + bytes,
               writeTimeMs := s.writeTimeMs + dur }

/-- `VirtualFS._release`: the record is deleted. -/
def vfsReleaseStats (m : StatsMap) (path : String) (fd : Nat) : StatsMap :=
  mapDelete m (path, fd)

def applyReads (path : String) (fd : Nat) : StatsMap → List (Nat × Nat) → StatsMap
  | m, [] => m
  | m, (bytes, dur) :: rest => applyReads path fd (vfsReadStats m path fd bytes dur) rest

def applyWrites (path : String) (fd : Nat) : StatsMap → List (Nat × Nat) → StatsMap
  | m, [] => m
  | m, (bytes, dur) :: rest => applyWrites path fd (vfsWriteStats m path fd bytes dur) rest

/-! ### CLI (`-keygen` / `-mount`) and `CryptKey` -/

def hexDigitChar (n : Nat) : Char := "0123456789abcdef".data.getD n '0'

/-- `Buffer.toString('hex')`: two lowercase hex digits per byte. -/
def toHexChars (bs : Bytes) : List Char :=
  bs.flatMap (fun b => [hexDigitChar (b / 16), hexDigitChar (b % 16)])

/-- `CryptKey.generate(bytesLen)` with `rb` abstracting
`crypto.randomBytes`. -/
def cryptKeyGenerate (rb : Nat → Bytes) (bytesLen : Nat) : List Char :=
  toHexChars (rb bytesLen)

def isDigitChar (c : Char) : Bool := 48 ≤ c.toNat && c.toNat ≤ 57

def digitsVal (l : List Char) : Nat := l.foldl (fun a c => a * 10 + (c.toNat - 48)) 0

/-- `parseInt(s, 10)`: skip spaces, optional sign, value of the leading
digit run; `none` models NaN. -/
def jsParseInt10 (s : List Char) : Option Int :=
  let t := s.dropWhile (fun c => c = ' ')
  match t with
  | '-' :: rest =>
    let ds := rest.takeWhile isDigitChar
    if ds = [] then none else some (-(digitsVal ds : Int))
  | '+' :: rest =>
    let ds := rest.takeWhile isDigitChar
    if ds = [] then none else some ((digitsVal ds : Int))
  | _ =>
    let ds := t.takeWhile isDigitChar
    if ds = [] then none else some ((digitsVal ds : Int))

/-- Exit code and emitted key of `njsfscrypt -keygen [length]`. -/
def cliKeygen (rb : Nat → Bytes) (arg : Option (List Char)) : Nat × Option (List Char) :=
  match arg with
  | none => (0, some (cryptKeyGenerate rb 32))
  | some a =>
    match jsParseInt10 a with
    | none => (1, none)
    | some v => if v ≤ 0 then (1, none) else (0, some (cryptKeyGenerate rb v.toNat))

def isHexDigitChar (c : Char) : Bool :=
  (48 ≤ c.toNat && c.toNat ≤ 57) || (97 ≤ c.toNat && c.toNat ≤ 102) ||
    (65 ≤ c.toNat && c.toNat ≤ 70)

/-- The `-mount` hex-key gate: `/^[0-9a-fA-F]+$/u` and even length;
failure exits with code 1. -/
def mountKeyOk (key : List Char) : Bool :=
  (!key.isEmpty && key.all isHexDigitChar) && key.length % 2 = 0

/-- The plaintext block size the CLI passes to `CryptFS` on `-mount`. -/
def cliMountBlockSize : Nat := 64 * 10124

/-! ### Derived characterisation of the CTR stream (proof layer)

`ksAt ks nonce p` is the keystream byte at absolute body offset `p`:
whenever `_deriveCounterIV` succeeds, encrypting a buffer at block
counter `c` XORs byte `j` with `ksAt (16*c + j)`. -/

def ksAt (ks : Nat → Nat → Nat) (nonce : Bytes) (p : Nat) : Nat :=
  ks ((beU (nonce.take 8) * 2 ^ 64 + beU ((nonce.drop 8).take 8) + p / 16) % 2 ^ 128)
    (p % 16)

def encSeg (ks : Nat → Nat → Nat) (nonce : Bytes) : Nat → Bytes → Bytes
  | _, [] => []
  | s, b :: rest => Nat.xor b (ksAt ks nonce s) :: encSeg ks nonce (s + 1) rest

/-- Concrete output of `cryptWrite` with the all-zero keystream, block size 16,
an all-zero nonce, an empty backing file and the 5-byte buffer `hello` at
offset 0 (used to instantiate the write-contract theorem). -/
def c4out : Bytes × List FsEvent × Nat :=
  ([0, 0, 0, 0, 0, 0, 0, 5] ++ zeros 16 ++ [104, 101, 108, 108, 111] ++ zeros 11,
   [FsEvent.write 0 (zeros 24),
    FsEvent.write 24 ([104, 101, 108, 108, 111] ++ zeros 11),
    FsEvent.write 0 [0, 0, 0, 0, 0, 0, 0, 5]],
   5)

/-- The closed-file invariant of the amended C2 claim: the backing file
holds a complete header, the physical body length `P = |f| - META_SIZE`
is a multiple of `AES_BLOCK = 16`, the stored size field `S` is
non-negative, and `P` does not exceed `S` rounded up to a whole plaintext
block of `B` bytes. -/
def closedInv (B : Nat) (f : Bytes) : Prop :=
  META_SIZE ≤ f.length
  ∧ 16 ∣ (f.length - META_SIZE)
  ∧ 0 ≤ beI (f.take 8)
  ∧ f.length - META_SIZE ≤ B * (((beI (f.take 8)).toNat + B - 1) / B)

instance (op : CfsOp) : Decidable (opWF op) := by
  cases op <;> (simp only [opWF]; infer_instance)

instance (B : Nat) (f : Bytes) : Decidable (closedInv B f) := by
  simp only [closedInv]
  infer_instance

/-- Concrete closed-file state after create, a 5-byte write and truncate
to 3 under the all-zero keystream with block size 16 (used to instantiate
the closed-file invariant theorem). -/
def c2file : Bytes :=
  [0, 0, 0, 0, 0, 0, 0, 3] ++ zeros 16 ++ [104, 101, 108, 108, 111] ++ zeros 11

end NjsCrypt

namespace NjsCrypt

/-! ## Basic lemmas about the byte/file primitives -/

theorem zeros_length (n : Nat) : (zeros n).length = n := List.length_replicate n 0

theorem zeros_succ (n : Nat) : zeros (n + 1) = 0 :: zeros n := rfl

theorem zeros_add (m n : Nat) : zeros (m + n) = zeros m ++ zeros n :=
  List.replicate_add m n 0

theorem fsRead_length (file : Bytes) (len pos : Nat) :
    (fsRead file len pos).length = min len (file.length - pos) := by
  simp [fsRead]

theorem fsWrite_length (file buf : Bytes) (pos : Nat) :
    (fsWrite file buf pos).length = max file.length (pos + buf.length) := by
  simp [fsWrite, zeros_length]
  omega

theorem fsTruncate_length (file : Bytes) (n : Nat) :
    (fsTruncate file n).length = n := by
  simp [fsTruncate, zeros_length]
  omega

theorem padTo_length (n : Nat) (xs : Bytes) :
    (padTo n xs).length = max n xs.length := by
  simp [padTo, zeros_length]
  omega

theorem copyInto_length (dst src : Bytes) (dstOff : Nat) :
    (copyInto dst dstOff src).length = dst.length := by
  simp [copyInto, zeros_length]
  omega

/-- `fsWrite` at a position inside the file, writing within bounds. -/
theorem fsWrite_eq_of_le (file buf : Bytes) (pos : Nat) (h : pos ≤ file.length) :
    fsWrite file buf pos = file.take pos ++ buf ++ file.drop (pos + buf.length) := by
  simp [fsWrite, Nat.sub_eq_zero_of_le h, zeros]

/-- `copyInto` when the copy fits entirely inside `dst`. -/
theorem copyInto_eq_of_fit (dst src : Bytes) (dstOff : Nat)
    (h : dstOff + src.length ≤ dst.length) :
    copyInto dst dstOff src = dst.take dstOff ++ src ++ dst.drop (dstOff + src.length) := by
  have h1 : src.length ≤ dst.length - dstOff := by omega
  simp [copyInto, Nat.min_eq_left h1, List.take_of_length_le h1]

theorem padTo_zeros (n m : Nat) : padTo n (zeros m) = zeros (max n m) := by
  unfold padTo
  rw [zeros_length, ← zeros_add]
  congr 1
  omega

theorem padTo_of_le (n : Nat) (xs : Bytes) (h : n ≤ xs.length) : padTo n xs = xs := by
  simp [padTo, Nat.sub_eq_zero_of_le h, zeros]

/-! ## Big-endian 64-bit encode/decode -/

theorem beU_append_singleton (xs : Bytes) (b : Nat) :
    beU (xs ++ [b]) = beU xs * 256 + b := by
  simp [beU, List.foldl_append]

theorem natToBE_length (n v : Nat) : (natToBE n v).length = n := by
  induction n generalizing v with
  | zero => rfl
  | succ n ih => simp [natToBE, ih]

theorem beU_natToBE (n v : Nat) : beU (natToBE n v) = v % 256 ^ n := by
  induction n generalizing v with
  | zero => simp [natToBE, beU, Nat.mod_one]
  | succ n ih =>
    show beU (natToBE n (v / 256) ++ [v % 256]) = _
    rw [beU_append_singleton, ih, pow_succ]
    have h1 : 256 ^ n * 256 = 256 * 256 ^ n := Nat.mul_comm _ _
    rw [h1, Nat.mod_mul]
    omega

theorem beBytes8_length (v : Int) : (beBytes8 v).length = 8 := natToBE_length _ _

theorem beI_beBytes8 (v : Int) (h1 : -(2 ^ 63) ≤ v) (h2 : v < 2 ^ 63) :
    beI (beBytes8 v) = v := by
  unfold beI beBytes8
  rw [beU_natToBE, show (256 : Nat) ^ 8 = 2 ^ 64 by norm_num]
  have hnn : 0 ≤ v.emod (2 ^ 64) := Int.emod_nonneg v (by norm_num)
  have hlt : v.emod (2 ^ 64) < 2 ^ 64 := Int.emod_lt_of_pos v (by norm_num)
  have hm : v.emod (2 ^ 64) = v % 2 ^ 64 := rfl
  split <;> omega

/-- Floor division of a non-negative `Int` agrees with `Nat` division. -/
theorem fdiv_nonneg_toNat (a b : Int) (ha : 0 ≤ a) (hb : 0 < b) :
    a.fdiv b = ((a.toNat / b.toNat : Nat) : Int) := by
  rw [Int.fdiv_eq_tdiv ha (le_of_lt hb)]
  rw [← Int.toNat_of_nonneg ha, ← Int.toNat_of_nonneg (le_of_lt hb)]
  exact_mod_cast (Int.ofNat_tdiv a.toNat b.toNat).symm

theorem META_SIZE_eq : META_SIZE = 24 := rfl

theorem AES_BLOCK_eq : AES_BLOCK = 16 := rfl

theorem fsWrite_zero (file buf : Bytes) :
    fsWrite file buf 0 = buf ++ file.drop buf.length := by
  rw [fsWrite_eq_of_le file buf 0 (Nat.zero_le _)]
  simp

theorem sizeField_take (file : Bytes) (v : Int) :
    (fsWrite file (beBytes8 v) 0).take 8 = beBytes8 v := by
  rw [fsWrite_zero]
  exact List.take_left' (beBytes8_length v)

theorem fsTruncate_take (f : Bytes) (n m : Nat) (hm : m ≤ n) (hf : m ≤ f.length) :
    (fsTruncate f n).take m = f.take m := by
  unfold fsTruncate
  rw [List.take_append_of_le_length (by rw [List.length_take]; omega)]
  rw [List.take_take, Nat.min_eq_left hm]

/-! ## C10: getattr on a file without a complete header -/

/-- C10: for an existing non-directory backing file with physical size
below `META_SIZE`, `CryptFS.getattr` succeeds and reports logical size 0,
and the result does not depend on the file's content (the 8-byte size
field is only read when the physical size is at least `META_SIZE`). -/
theorem c10_getattr_short (file file2 : Bytes) (h : file.length < META_SIZE)
    (h2 : file2.length < META_SIZE) :
    getattrFileSize file = 0 ∧ getattrFileSize file = getattrFileSize file2 := by
  unfold getattrFileSize
  rw [if_neg (by omega), if_neg (by omega)]
  exact ⟨rfl, rfl⟩

theorem c10_getattr_short_w :
    getattrFileSize [1, 2, 3] = 0 ∧ getattrFileSize [1, 2, 3] = getattrFileSize [7] :=
  c10_getattr_short [1, 2, 3] [7] (by decide) (by decide)

/-! ## C9: CLI keygen / mount -/

/-- C9: the `-keygen` exit codes and the `-mount` hex-key validation
behave as specified on concrete inputs, but the mount path constructs the
`CryptFS` backend with plaintext block size `64 * 10124 = 647936` bytes —
not the specified 64 KiB (65536); `64 * 10124` is evidently a typo for
`64 * 1024`, which the repository's other entry point uses. -/
theorem c9_cli_blocksize :
    mountKeyOk "00ff".data = true
    ∧ mountKeyOk "00f".data = false
    ∧ mountKeyOk "0g00".data = false
    ∧ mountKeyOk "".data = false
    ∧ (cliKeygen (fun n => zeros n) (some "3".data)).1 = 0
    ∧ (cliKeygen (fun n => zeros n) (some "0".data)).1 = 1
    ∧ (cliKeygen (fun n => zeros n) (some "-2".data)).1 = 1
    ∧ (cliKeygen (fun n => zeros n) (some "xy".data)).1 = 1
    ∧ cliKeygen (fun n => zeros n) (some "3".data)
        = (0, some ['0', '0', '0', '0', '0', '0'])
    ∧ cliMountBlockSize = 647936
    ∧ cliMountBlockSize ≠ 64 * 1024 := by decide

/-! ## C2 counterexample: the physical body can exceed
`ceil(S/AES_BLOCK)*AES_BLOCK` -/

/-- C2 counterexample: create, then write the 5 bytes "hello" at offset 0
with plaintext block size 32 (a legal multiple of `AES_BLOCK`): the
closed file has 56 physical bytes, so `P = 32`, while the claimed bound
`ceil(5/16)*16` is only 16.  The write loop always rewrites whole
plaintext blocks, so `P` is bounded by the block size, not `AES_BLOCK`. -/
theorem c2_cex :
    ((runOps (fun _ _ => 0) 32 []
        [CfsOp.create (zeros 16), CfsOp.write (zeros 16) [104, 101, 108, 108, 111] 0]).map
          (fun f => (f.length, beI (f.take 8))) = some (56, 5))
    ∧ ¬ (56 - META_SIZE ≤ (5 + (AES_BLOCK - 1)) / AES_BLOCK * AES_BLOCK) := by decide

/-! ## C5: truncate / ftruncate -/

/-- The physical length computed by `truncate`/`ftruncate`, as a `Nat`
cast. -/
theorem newPhys_eq_cast (size : Int) (h0 : 0 ≤ size) :
    (META_SIZE : Int) + (size + ((AES_BLOCK : Int) - 1)).fdiv (AES_BLOCK : Int) * (AES_BLOCK : Int)
      = ((META_SIZE + (size.toNat + 15) / 16 * 16 : Nat) : Int) := by
  have e1 : ((AES_BLOCK : Nat) : Int) = 16 := by
    rw [AES_BLOCK_eq]; norm_num
  rw [e1]
  rw [fdiv_nonneg_toNat _ 16 (by omega) (by norm_num)]
  have e2 : ((16 : Int)).toNat = 16 := rfl
  rw [e2]
  have h2 : (size + (16 - 1)).toNat = size.toNat + 15 := by omega
  rw [h2, META_SIZE_eq]
  push_cast
  ring

theorem cryptTruncate_eq (file : Bytes) (size : Int) (h0 : 0 ≤ size) (h63 : size < 2 ^ 63) :
    cryptTruncate file size
      = some (fsTruncate (fsWrite file (beBytes8 size) 0)
          (META_SIZE + (size.toNat + 15) / 16 * 16)) := by
  simp only [cryptTruncate]
  rw [if_pos ⟨by omega, h63⟩]
  rw [newPhys_eq_cast size h0]
  rw [Int.toNat_ofNat]

theorem cryptFtruncate_eq (file : Bytes) (size : Int) (h0 : 0 ≤ size) (h63 : size < 2 ^ 63) :
    cryptFtruncate file size
      = Except.ok (if META_SIZE + (size.toNat + 15) / 16 * 16 < (fsWrite file (beBytes8 size) 0).length
          then fsTruncate (fsWrite file (beBytes8 size) 0) (META_SIZE + (size.toNat + 15) / 16 * 16)
          else fsWrite file (beBytes8 size) 0) := by
  simp only [cryptFtruncate]
  rw [if_neg (by omega), if_pos h63]
  rw [newPhys_eq_cast size h0]
  rw [Int.toNat_ofNat]
  simp only [Nat.cast_lt]

/-- C5 counterexample: on a freshly created backing file (24 bytes),
`truncate` to 32 grows the physical file to 56 bytes — the claim says the
file is only ever shrunk — and `truncate` with size `-1` succeeds, where
the claim requires an invalid-argument failure. -/
theorem c5_cex :
    (cryptTruncate (zeros META_SIZE) 32).map List.length = some 56
    ∧ (cryptTruncate (zeros META_SIZE) (-1)).isSome = true := by decide

/-- C5 (amended): both operations write the new size `S = size` into the
header; `ftruncate` rejects `size < 0` with invalid-argument and shrinks
the backing file only when it is longer than
`META_SIZE + ceil(size/16)*16`; but path `truncate` resizes the backing
file to exactly that length unconditionally (growth pre-allocates zero
bytes) and accepts negative sizes without error. -/
theorem c5_truncate_policy :
    (∀ (file : Bytes) (size : Int), 0 ≤ size → size < 2 ^ 63 →
      (cryptTruncate file size).map List.length
          = some (META_SIZE + (size.toNat + 15) / 16 * 16)
        ∧ (cryptTruncate file size).map (fun f => beI (f.take 8)) = some size)
    ∧ (∀ (file : Bytes) (size : Int), -(2 ^ 63) ≤ size → size < 0 →
      (cryptTruncate file size).isSome = true)
    ∧ (∀ (file : Bytes) (size : Int), size < 0 →
      cryptFtruncate file size = Except.error FuseErr.EINVAL)
    ∧ (∀ (file : Bytes) (size : Int), 0 ≤ size → size < 2 ^ 63 →
      ∃ f', cryptFtruncate file size = Except.ok f'
        ∧ beI (f'.take 8) = size
        ∧ f'.length = min (max file.length 8) (META_SIZE + (size.toNat + 15) / 16 * 16)) := by
  refine ⟨?_, ?_, ?_, ?_⟩
  · intro file size h0 h63
    rw [cryptTruncate_eq file size h0 h63]
    constructor
    · rw [Option.map_some']
      congr 1
      exact fsTruncate_length _ _
    · rw [Option.map_some']
      congr 1
      rw [fsTruncate_take _ _ 8 (by rw [META_SIZE_eq]; omega)
          (by rw [fsWrite_length, beBytes8_length]; omega)]
      rw [sizeField_take]
      exact beI_beBytes8 size (by omega) h63
  · intro file size hl hneg
    unfold cryptTruncate
    rw [if_pos ⟨hl, by omega⟩]
    rfl
  · intro file size hneg
    unfold cryptFtruncate
    rw [if_pos hneg]
  · intro file size h0 h63
    rw [cryptFtruncate_eq file size h0 h63]
    refine ⟨_, rfl, ?_, ?_⟩
    · split
      case isTrue hlt =>
        rw [fsTruncate_take _ _ 8 (by rw [META_SIZE_eq]; omega)
            (by rw [fsWrite_length, beBytes8_length]; omega)]
        rw [sizeField_take]
        exact beI_beBytes8 size (by omega) h63
      case isFalse hge =>
        rw [sizeField_take]
        exact beI_beBytes8 size (by omega) h63
    · split
      case isTrue hlt =>
        rw [fsTruncate_length]
        rw [fsWrite_length, beBytes8_length] at hlt
        omega
      case isFalse hge =>
        rw [fsWrite_length, beBytes8_length] at hge ⊢
        omega

theorem c5_truncate_policy_w :
    (cryptTruncate (zeros META_SIZE) 5).map List.length = some 40
    ∧ cryptFtruncate (zeros META_SIZE) (-1) = Except.error FuseErr.EINVAL := by
  constructor
  · have h := (c5_truncate_policy.1 (zeros META_SIZE) 5 (by norm_num) (by norm_num)).1
    rw [h]
    rfl
  · exact c5_truncate_policy.2.2.1 (zeros META_SIZE) (-1) (by norm_num)

/-! ## C7: dispatcher statistics -/

theorem mapGet_mapSet_self (m : StatsMap) (k : String × Nat) (v : VirtualFSStats) :
    mapGet (mapSet m k v) k = some v := by
  induction m with
  | nil => simp [mapSet, mapGet]
  | cons kv rest ih =>
    by_cases h : kv.1 = k
    · simp [mapSet, mapGet, h]
    · simp [mapSet, mapGet, h, ih]

theorem mapGet_eq_none_of_not_mem (m : StatsMap) (k : String × Nat)
    (h : k ∉ m.map Prod.fst) : mapGet m k = none := by
  induction m with
  | nil => rfl
  | cons kv rest ih =>
    simp only [List.map_cons, List.mem_cons] at h
    push_neg at h
    have hne : ¬ kv.1 = k := fun he => h.1 he.symm
    simp [mapGet, hne, ih h.2]

theorem mapGet_mapDelete_self (m : StatsMap) (k : String × Nat)
    (h : (m.map Prod.fst).Nodup) : mapGet (mapDelete m k) k = none := by
  induction m with
  | nil => rfl
  | cons kv rest ih =>
    simp only [List.map_cons, List.nodup_cons] at h
    by_cases he : kv.1 = k
    · simp only [mapDelete, if_pos he]
      exact mapGet_eq_none_of_not_mem rest k (he ▸ h.1)
    · simp [mapDelete, he, mapGet, ih h.2]

theorem applyReads_get (path : String) (fd : Nat) (rs : List (Nat × Nat)) :
    ∀ (m : StatsMap) (s : VirtualFSStats), mapGet m (path, fd) = some s →
    ∃ s', mapGet (applyReads path fd m rs) (path, fd) = some s'
      ∧ s'.readOps = s.readOps + rs.length
      ∧ s'.readBytesTotal = s.readBytesTotal + (rs.map Prod.fst).sum := by
  induction rs with
  | nil =>
    intro m s hm
    exact ⟨s, hm, by simp, by simp⟩
  | cons bd rest ih =>
    intro m s hm
    have hstep : mapGet (vfsReadStats m path fd bd.1 bd.2) (path, fd)
        = some { s with readOps := s.readOps + 1, readBytes := bd.1,
                        readBytesDuration := bd.2,
                        readBytesTotal := s.readBytesTotal + bd.1,
                        readTimeMs := s.readTimeMs + bd.2 } := by
      unfold vfsReadStats
      rw [hm]
      exact mapGet_mapSet_self _ _ _
    obtain ⟨s', h1, h2, h3⟩ := ih _ _ hstep
    refine ⟨s', ?_, ?_, ?_⟩
    · show mapGet (applyReads path fd (vfsReadStats m path fd bd.1 bd.2) rest) (path, fd)
        = some s'
      exact h1
    · rw [h2]; simp; omega
    · rw [h3]; simp; omega

theorem applyWrites_get (path : String) (fd : Nat) (ws : List (Nat × Nat)) :
    ∀ (m : StatsMap) (s : VirtualFSStats), mapGet m (path, fd) = some s →
    ∃ s', mapGet (applyWrites path fd m ws) (path, fd) = some s'
      ∧ s'.writeOps = s.writeOps + ws.length
      ∧ s'.writeBytesTotal = s.writeBytesTotal + (ws.map Prod.fst).sum := by
  induction ws with
  | nil =>
    intro m s hm
    exact ⟨s, hm, by simp, by simp⟩
  | cons bd rest ih =>
    intro m s hm
    have hstep : mapGet (vfsWriteStats m path fd bd.1 bd.2) (path, fd)
        = some { s with writeOps := s.writeOps + 1, writeBytes := bd.1,
                        writeBytesDuration := bd.2,
                        writeBytesTotal := s.writeBytesTotal + bd.1,
                        writeTimeMs := s.writeTimeMs + bd.2 } := by
      unfold vfsWriteStats
      rw [hm]
      exact mapGet_mapSet_self _ _ _
    obtain ⟨s', h1, h2, h3⟩ := ih _ _ hstep
    refine ⟨s', ?_, ?_, ?_⟩
    · show mapGet (applyWrites path fd (vfsWriteStats m path fd bd.1 bd.2) rest) (path, fd)
        = some s'
      exact h1
    · rw [h2]; simp; omega
    · rw [h3]; simp; omega

/-- C7 counterexample: the dispatcher's `_create` hands out a descriptor
without allocating a statistics record for it — only `_open` allocates —
so after a create the lookup under `(path, fd)` finds nothing, refuting
"allocates a statistics record ... on open and on create". -/
theorem c7_cex : mapGet (vfsCreateStats [] "/a.txt" 1) ("/a.txt", 1) = none := rfl

/-- C7 (amended): the dispatcher allocates the zeroed statistics record
keyed by `(path, fd)` on open only (`_create` leaves the map unchanged),
deletes it on release, and after N successful reads totalling R bytes on
an fd opened through `_open` the record reports `readOps = N` and
`readBytesTotal = R`, symmetrically for writes. -/
theorem c7_stats_accounting :
    (∀ (m : StatsMap) (path : String) (fd : Nat),
      mapGet (vfsOpenStats m path fd) (path, fd) = some zeroStats)
    ∧ (∀ (m : StatsMap) (path : String) (fd : Nat), vfsCreateStats m path fd = m)
    ∧ (∀ (m : StatsMap) (path : String) (fd : Nat), (m.map Prod.fst).Nodup →
      mapGet (vfsReleaseStats m path fd) (path, fd) = none)
    ∧ (∀ (m : StatsMap) (path : String) (fd : Nat) (rs : List (Nat × Nat)),
      (mapGet (applyReads path fd (vfsOpenStats m path fd) rs) (path, fd)).map
          (fun s => (s.readOps, s.readBytesTotal))
        = some (rs.length, (rs.map Prod.fst).sum))
    ∧ (∀ (m : StatsMap) (path : String) (fd : Nat) (ws : List (Nat × Nat)),
      (mapGet (applyWrites path fd (vfsOpenStats m path fd) ws) (path, fd)).map
          (fun s => (s.writeOps, s.writeBytesTotal))
        = some (ws.length, (ws.map Prod.fst).sum)) := by
  refine ⟨?_, ?_, ?_, ?_, ?_⟩
  · intro m path fd
    exact mapGet_mapSet_self m (path, fd) zeroStats
  · intro m path fd
    rfl
  · intro m path fd h
    exact mapGet_mapDelete_self m (path, fd) h
  · intro m path fd rs
    obtain ⟨s', h1, h2, h3⟩ :=
      applyReads_get path fd rs (vfsOpenStats m path fd) zeroStats
        (mapGet_mapSet_self m (path, fd) zeroStats)
    rw [h1, Option.map_some']
    simp only [zeroStats] at h2 h3
    rw [h2, h3]
    simp
  · intro m path fd ws
    obtain ⟨s', h1, h2, h3⟩ :=
      applyWrites_get path fd ws (vfsOpenStats m path fd) zeroStats
        (mapGet_mapSet_self m (path, fd) zeroStats)
    rw [h1, Option.map_some']
    simp only [zeroStats] at h2 h3
    rw [h2, h3]
    simp

theorem c7_stats_accounting_w :
    mapGet (vfsReleaseStats (vfsOpenStats [] "/a" 3) "/a" 3) ("/a", 3) = none
    ∧ (mapGet (applyReads "/a" 3 (vfsOpenStats [] "/a" 3) [(5, 1), (7, 2)]) ("/a", 3)).map
        (fun s => (s.readOps, s.readBytesTotal)) = some (2, 12) := by
  constructor
  · exact c7_stats_accounting.2.2.1 (vfsOpenStats [] "/a" 3) "/a" 3 (by decide)
  · have h := c7_stats_accounting.2.2.2.1 [] "/a" 3 [(5, 1), (7, 2)]
    rw [h]
    rfl

end NjsCrypt

namespace NjsCrypt

/-! ## C3: read never returns bytes at or past the stored size -/

theorem cryptReadLoop_length (ks : Nat → Nat → Nat) (B : Nat) (file nonce : Bytes)
    (off toRead : Nat) :
    ∀ (cnt k : Nat) (out : Bytes) (done : Nat) (res : Bytes),
      cryptReadLoop ks B file nonce off toRead cnt k out done = some res →
      res.length = out.length := by
  intro cnt
  induction cnt with
  | zero =>
    intro k out done res h
    cases h
    rfl
  | succ cnt ih =>
    intro k out done res h
    simp only [cryptReadLoop] at h
    split at h
    · exact absurd h (by simp)
    · have hres := ih _ _ _ _ h
      rw [hres, copyInto_length]

/-- C3: on the encrypted store, a read of a backing file without a
complete header returns empty; a read at `off ≥ S` returns empty; and a
successful read returns at most `min(len, S - off)` bytes — exactly that
many when `off < S` — so no byte at a logical offset at or past `S` is
ever returned. -/
theorem c3_read_clipping (ks : Nat → Nat → Nat) (B : Nat) (file : Bytes)
    (len off : Nat) :
    (file.length < META_SIZE → cryptRead ks B file len off = some [])
    ∧ (META_SIZE ≤ file.length → beI (fsRead file 8 0) ≤ (off : Int) →
        cryptRead ks B file len off = some [])
    ∧ (∀ out, cryptRead ks B file len off = some out →
        out.length ≤ min len ((beI (fsRead file 8 0) - (off : Int)).toNat)
        ∧ (META_SIZE ≤ file.length → (off : Int) < beI (fsRead file 8 0) →
            out.length = min len ((beI (fsRead file 8 0) - (off : Int)).toNat))) := by
  refine ⟨?_, ?_, ?_⟩
  · intro h
    unfold cryptRead
    rw [if_pos h]
  · intro h hoff
    unfold cryptRead
    rw [if_neg (by omega), if_pos hoff]
  · intro out h
    unfold cryptRead at h
    by_cases h1 : file.length < META_SIZE
    · rw [if_pos h1] at h
      cases h
      exact ⟨by simp, fun h2 _ => absurd h2 (by omega)⟩
    · rw [if_neg h1] at h
      by_cases h2 : beI (fsRead file 8 0) ≤ (off : Int)
      · rw [if_pos h2] at h
        cases h
        constructor
        · simp
        · intro _ h3
          exact absurd h3 (by omega)
      · rw [if_neg h2] at h
        have hlen := cryptReadLoop_length ks B file _ off _ _ _ _ _ _ h
        rw [zeros_length] at hlen
        exact ⟨le_of_eq hlen, fun _ _ => hlen⟩

set_option maxRecDepth 10000 in
theorem c3_read_clipping_w :
    cryptRead (fun _ _ => 0) 16 [1, 2] 5 0 = some []
    ∧ cryptRead (fun _ _ => 0) 16 (zeros 24) 5 0 = some []
    ∧ (zeros 5).length
        ≤ min 7 ((beI (fsRead (beBytes8 5 ++ zeros 32) 8 0) - (0 : Int)).toNat) := by
  refine ⟨?_, ?_, ?_⟩
  · exact (c3_read_clipping (fun _ _ => 0) 16 [1, 2] 5 0).1 (by decide)
  · exact (c3_read_clipping (fun _ _ => 0) 16 (zeros 24) 5 0).2.1 (by decide) (by decide)
  · exact ((c3_read_clipping (fun _ _ => 0) 16 (beBytes8 5 ++ zeros 32) 7 0).2.2
      (zeros 5) (by decide)).1

end NjsCrypt

namespace NjsCrypt

/-! ## C6: longest-prefix resolution -/

theorem mem_insertDesc (x a : VRegEntry) (l : List VRegEntry) :
    a ∈ insertDesc x l ↔ a = x ∨ a ∈ l := by
  induction l with
  | nil => simp [insertDesc]
  | cons y ys ih =>
    unfold insertDesc
    split <;> (simp only [List.mem_cons, ih]; try tauto)

theorem mem_sortDesc (a : VRegEntry) (l : List VRegEntry) :
    a ∈ sortDesc l ↔ a ∈ l := by
  have key : ∀ (l : List VRegEntry) (acc : List VRegEntry),
      a ∈ l.foldl (fun acc x => insertDesc x acc) acc ↔ a ∈ acc ∨ a ∈ l := by
    intro l
    induction l with
    | nil => simp
    | cons y ys ih =>
      intro acc
      simp only [List.foldl_cons, ih, mem_insertDesc, List.mem_cons]
      tauto
  unfold sortDesc
  rw [key l []]
  simp

theorem pairwise_insertDesc (x : VRegEntry) (l : List VRegEntry)
    (h : l.Pairwise (fun a b => sourceLen b ≤ sourceLen a)) :
    (insertDesc x l).Pairwise (fun a b => sourceLen b ≤ sourceLen a) := by
  induction l with
  | nil => simp [insertDesc]
  | cons y ys ih =>
    rw [List.pairwise_cons] at h
    unfold insertDesc
    split
    case isTrue hle =>
      rw [List.pairwise_cons]
      refine ⟨?_, ih h.2⟩
      intro a ha
      rw [mem_insertDesc] at ha
      rcases ha with rfl | ha
      · exact hle
      · exact h.1 a ha
    case isFalse hgt =>
      rw [List.pairwise_cons]
      refine ⟨?_, List.pairwise_cons.mpr h⟩
      intro a ha
      rcases List.mem_cons.mp ha with rfl | ha
      · omega
      · have := h.1 a ha
        omega

theorem pairwise_sortDesc (l : List VRegEntry) :
    (sortDesc l).Pairwise (fun a b => sourceLen b ≤ sourceLen a) := by
  have key : ∀ (l acc : List VRegEntry),
      acc.Pairwise (fun a b => sourceLen b ≤ sourceLen a) →
      (l.foldl (fun acc x => insertDesc x acc) acc).Pairwise
        (fun a b => sourceLen b ≤ sourceLen a) := by
    intro l
    induction l with
    | nil => intro acc h; simpa using h
    | cons y ys ih =>
      intro acc h
      exact ih _ (pairwise_insertDesc y acc h)
  exact key l [] (by simp)

theorem find?_max_key (l : List VRegEntry) (p : VRegEntry → Bool) (e : VRegEntry)
    (hsort : l.Pairwise (fun a b => sourceLen b ≤ sourceLen a))
    (h : l.find? p = some e) :
    ∀ e' ∈ l, p e' = true → sourceLen e' ≤ sourceLen e := by
  induction l with
  | nil => simp at h
  | cons a rest ih =>
    rw [List.pairwise_cons] at hsort
    by_cases hpa : p a
    · rw [List.find?_cons_of_pos _ hpa] at h
      injection h with h
      subst h
      intro e' he' hp
      rcases List.mem_cons.mp he' with h1 | h1
      · subst h1; exact le_refl _
      · exact hsort.1 e' h1
    · rw [List.find?_cons_of_neg _ hpa] at h
      intro e' he' hp
      rcases List.mem_cons.mp he' with h1 | h1
      · subst h1; exact absurd hp (by simp [hpa])
      · exact ih hsort.2 h e' h1 hp

/-- Each pattern character contributes at least one character to the
escaped regex source. -/
theorem regexSource_append_le (p t : List Char) :
    (regexSource p).length + t.length ≤ (regexSource (p ++ t)).length := by
  unfold regexSource
  simp only [List.length_cons, List.flatMap_append, List.length_append]
  have h : ∀ (u : List Char),
      u.length ≤ (u.flatMap (fun c => if c = '/' then ['\\', '/'] else [c])).length := by
    intro u
    induction u with
    | nil => simp
    | cons c cs ih =>
      rw [List.flatMap_cons, List.length_append, List.length_cons]
      have hc : 1 ≤ (if c = '/' then ['\\', '/'] else [c]).length := by
        split <;> simp
      omega
  have := h t
  omega

theorem sourceLen_mono (p t : List Char) :
    (regexSource p).length ≤ (regexSource (p ++ t)).length := by
  have := regexSource_append_le p t
  omega

/-- Under `sourceLen` anti-monotone order, a pattern that extends another
with a nonempty tail has strictly larger source. -/
theorem regexSource_strict (p t : List Char) (ht : t ≠ []) :
    (regexSource p).length < (regexSource (p ++ t)).length := by
  have h := regexSource_append_le p t
  have : 0 < t.length := List.length_pos.mpr ht
  omega

theorem regexSource_ne_root_exact (p : List Char) (hp : LiteralPat p) :
    regexSource p ≠ "^\\/$".data := by
  intro he
  unfold regexSource at he
  rw [show "^\\/$".data = '^' :: ['\\', '/', '$'] from by decide] at he
  injection he with h1 h2
  have hmem : ('$' : Char) ∈ p.flatMap (fun c => if c = '/' then ['\\', '/'] else [c]) := by
    rw [h2]; decide
  rw [List.mem_flatMap] at hmem
  obtain ⟨c, hc, hcmem⟩ := hmem
  have hc2 : c = '$' := by
    by_cases h : c = '/'
    · rw [if_pos h] at hcmem
      exact absurd hcmem (by decide)
    · rw [if_neg h] at hcmem
      rw [List.mem_singleton] at hcmem
      exact hcmem.symm
  subst hc2
  exact hp '$' hc (by decide)

end NjsCrypt

namespace NjsCrypt

/-- C6: with string-registered metacharacter-free patterns, the
dispatcher resolves each path to the registered prefix of greatest
pattern length that matches; the remainder of the path is handed to that
backend with a leading '/' re-prepended when stripping would not leave
one; no matching prefix means the no-backend failure (`none`).  In
particular, with backends under "/" and "/crypt2", "/crypt2/x" resolves
to backend 2 with "/x" and "/other/x" resolves to backend 1 with
"/other/x". -/
instance (p : List Char) : Decidable (LiteralPat p) := by
  unfold LiteralPat
  infer_instance

theorem c6_longest_prefix_wins (reg : List VRegEntry) (path : List Char)
    (hlit : ∀ e ∈ reg, LiteralPat e.pattern) :
    (vfsResolve reg path = none ↔ ∀ e ∈ reg, ¬ e.pattern <+: path)
    ∧ (∀ i rel, vfsResolve reg path = some (i, rel) →
        ∃ e, e ∈ reg ∧ e.inst = i ∧ e.pattern <+: path
          ∧ (∀ e' ∈ reg, e'.pattern <+: path → e'.pattern.length ≤ e.pattern.length)
          ∧ rel = (if (path.drop e.pattern.length).head? = some '/'
                   then path.drop e.pattern.length
                   else '/' :: path.drop e.pattern.length))
    ∧ vfsResolve [⟨"/".data, 1⟩, ⟨"/crypt2".data, 2⟩] "/crypt2/x".data
        = some (2, "/x".data)
    ∧ vfsResolve [⟨"/".data, 1⟩, ⟨"/crypt2".data, 2⟩] "/other/x".data
        = some (1, "/other/x".data) := by
  refine ⟨?_, ?_, by decide, by decide⟩
  · cases hf : (sortDesc reg).find? (fun e => e.pattern.isPrefixOf path) with
    | none =>
      simp only [vfsResolve, hf]
      constructor
      · intro _ e he hpre
        rw [List.find?_eq_none] at hf
        have := hf e ((mem_sortDesc e reg).mpr he)
        rw [ List.isPrefixOf_iff_prefix] at this
        exact this hpre
      · intro _
        trivial
    | some e =>
      simp only [vfsResolve, hf]
      constructor
      · intro hcontra
        split at hcontra <;> cases hcontra
      · intro hall
        exfalso
        have hmem := List.mem_of_find?_eq_some hf
        have hp := List.find?_some hf
        rw [ List.isPrefixOf_iff_prefix] at hp
        exact hall e ((mem_sortDesc e reg).mp hmem) hp
  · intro i rel h
    cases hf : (sortDesc reg).find? (fun e => e.pattern.isPrefixOf path) with
    | none =>
      rw [vfsResolve, hf] at h
      simp at h
    | some e =>
      simp only [vfsResolve, hf] at h
      have hmem : e ∈ reg := (mem_sortDesc e reg).mp (List.mem_of_find?_eq_some hf)
      have hlitE := hlit e hmem
      rw [if_neg (regexSource_ne_root_exact e.pattern hlitE)] at h
      have hpre : e.pattern <+: path := by
        have hp := List.find?_some hf
        rwa [ List.isPrefixOf_iff_prefix] at hp
      injection h with h
      rw [Prod.mk.injEq] at h
      refine ⟨e, hmem, h.1, hpre, ?_, h.2.symm⟩
      intro e' he' hpre'
      have hs := find?_max_key (sortDesc reg) _ e (pairwise_sortDesc reg) hf e'
        ((mem_sortDesc e' reg).mpr he')
        (by rw [ List.isPrefixOf_iff_prefix]; exact hpre')
      rcases List.prefix_or_prefix_of_prefix hpre' hpre with hcase | hcase
      · exact hcase.length_le
      · obtain ⟨t, ht⟩ := hcase
        by_cases htn : t = []
        · subst htn
          rw [List.append_nil] at ht
          rw [← ht]
        · exfalso
          have hstrict := regexSource_strict e.pattern t htn
          unfold sourceLen at hs
          rw [ht] at hstrict
          omega

theorem c6_longest_prefix_wins_w :
    vfsResolve [⟨"/".data, 1⟩, ⟨"/crypt2".data, 2⟩] "/crypt2/x".data
      = some (2, "/x".data) :=
  (c6_longest_prefix_wins [⟨"/".data, 1⟩, ⟨"/crypt2".data, 2⟩] "/crypt2/x".data
    (by decide)).2.2.1

end NjsCrypt

namespace NjsCrypt

/-! ## C8: name codec round trip and injectivity -/

theorem gXorFrom_length (gks : Nat → Nat) : ∀ (i : Nat) (s : Bytes),
    (gXorFrom gks i s).length = s.length := by
  intro i s
  induction s generalizing i with
  | nil => rfl
  | cons b rest ih => simp [gXorFrom, ih]

theorem gXorFrom_involutive (gks : Nat → Nat) : ∀ (i : Nat) (s : Bytes),
    gXorFrom gks i (gXorFrom gks i s) = s := by
  intro i s
  induction s generalizing i with
  | nil => rfl
  | cons b rest ih =>
    simp only [gXorFrom, ih]
    congr 1
    exact Nat.xor_cancel_right (gks i) b

theorem gXor_involutive (gks : Nat → Nat) (s : Bytes) : gXor gks (gXor gks s) = s :=
  gXorFrom_involutive gks 0 s

theorem gXorFrom_lt (gks : Nat → Nat) (hg : ∀ i, gks i < 256) : ∀ (i : Nat) (s : Bytes),
    (∀ b ∈ s, b < 256) → ∀ b ∈ gXorFrom gks i s, b < 256 := by
  intro i s
  induction s generalizing i with
  | nil => intro _ b hb; cases hb
  | cons x rest ih =>
    intro hs b hb
    rcases List.mem_cons.mp hb with rfl | hb
    · have h1 : x < 2 ^ 8 := hs x (by simp)
      have h2 : gks i < 2 ^ 8 := hg i
      exact Nat.xor_lt_two_pow h1 h2
    · exact ih (i + 1) (fun y hy => hs y (by simp [hy])) b hb

theorem charVal_b64Char (n : Nat) (h : n < 64) : b64CharVal (b64Char n) = some n := by
  have key : ∀ m : Fin 64, b64CharVal (b64Char m.val) = some m.val := by decide
  exact key ⟨n, h⟩

theorem unUrl_url_b64Char (n : Nat) (h : n < 64) :
    unUrlSafeChar (urlSafeChar (b64Char n)) = b64Char n := by
  have key : ∀ m : Fin 64, unUrlSafeChar (urlSafeChar (b64Char m.val)) = b64Char m.val := by
    decide
  exact key ⟨n, h⟩

theorem urlSafeChar_pad_iff (c : Char) : urlSafeChar c = '=' ↔ c = '=' := by
  unfold urlSafeChar
  by_cases h1 : c = '+'
  · rw [if_pos h1]
    subst h1
    decide
  · rw [if_neg h1]
    by_cases h2 : c = '/'
    · rw [if_pos h2]
      subst h2
      decide
    · rw [if_neg h2]

/-- Every character of a standard base64 encoding of genuine bytes is
either '=' or an alphabet character. -/
theorem b64Encode_chars (s : Bytes) (hs : ∀ b ∈ s, b < 256) :
    ∀ c ∈ b64Encode s, c = '=' ∨ ∃ n, n < 64 ∧ c = b64Char n := by
  induction s using b64Encode.induct with
  | case1 => intro c hc; cases hc
  | case2 a =>
    intro c hc
    have ha : a < 256 := hs a (by simp)
    simp only [b64Encode, List.mem_cons] at hc
    rcases hc with rfl | rfl | rfl | rfl | h
    · exact Or.inr ⟨a / 4, by omega, rfl⟩
    · exact Or.inr ⟨a % 4 * 16, by omega, rfl⟩
    · exact Or.inl rfl
    · exact Or.inl rfl
    · cases h
  | case3 a b =>
    intro c hc
    have ha : a < 256 := hs a (by simp)
    have hb : b < 256 := hs b (by simp)
    simp only [b64Encode, List.mem_cons] at hc
    rcases hc with rfl | rfl | rfl | rfl | h
    · exact Or.inr ⟨a / 4, by omega, rfl⟩
    · exact Or.inr ⟨a % 4 * 16 + b / 16, by omega, rfl⟩
    · exact Or.inr ⟨b % 16 * 4, by omega, rfl⟩
    · exact Or.inl rfl
    · cases h
  | case4 a b cc rest ih =>
    intro c hc
    have ha : a < 256 := hs a (by simp)
    have hb : b < 256 := hs b (by simp)
    have hcc : cc < 256 := hs cc (by simp)
    simp only [b64Encode, List.mem_cons] at hc
    rcases hc with rfl | rfl | rfl | rfl | h
    · exact Or.inr ⟨a / 4, by omega, rfl⟩
    · exact Or.inr ⟨a % 4 * 16 + b / 16, by omega, rfl⟩
    · exact Or.inr ⟨b % 16 * 4 + cc / 64, by omega, rfl⟩
    · exact Or.inr ⟨cc % 64, by omega, rfl⟩
    · exact ih (fun y hy => hs y (by simp [hy])) c h

theorem stripEq_cons (c : Char) (rest : List Char) :
    stripEq (c :: rest)
      = if stripEq rest = [] then (if c = '=' then [] else [c]) else c :: stripEq rest := by
  rfl

theorem mem_stripEq (l : List Char) : ∀ c ∈ stripEq l, c ∈ l := by
  induction l with
  | nil => intro c hc; cases hc
  | cons x rest ih =>
    intro c hc
    rw [stripEq_cons] at hc
    by_cases h1 : stripEq rest = []
    · rw [if_pos h1] at hc
      by_cases h2 : x = '='
      · rw [if_pos h2] at hc; cases hc
      · rw [if_neg h2] at hc
        rcases List.mem_singleton.mp hc with rfl
        simp
    · rw [if_neg h1] at hc
      rcases List.mem_cons.mp hc with rfl | hc
      · simp
      · exact List.mem_cons_of_mem x (ih c hc)

theorem stripEq_map_pad (f : Char → Char) (hf : ∀ c, f c = '=' ↔ c = '=') (l : List Char) :
    stripEq (l.map f) = (stripEq l).map f := by
  induction l with
  | nil => rfl
  | cons c rest ih =>
    rw [List.map_cons, stripEq_cons, stripEq_cons, ih]
    by_cases h1 : stripEq rest = []
    · rw [h1, List.map_nil, if_pos rfl, if_pos rfl]
      by_cases h2 : c = '='
      · rw [if_pos ((hf c).mpr h2), if_pos h2, List.map_nil]
      · rw [if_neg (fun hc => h2 ((hf c).mp hc)), if_neg h2, List.map_cons, List.map_nil]
    · have h1' : (stripEq rest).map f ≠ [] := by
        intro hc
        exact h1 (List.map_eq_nil_iff.mp hc)
      rw [if_neg h1', if_neg h1, List.map_cons]

end NjsCrypt

namespace NjsCrypt

theorem b64Char_ne_pad (n : Nat) (h : n < 64) : b64Char n ≠ '=' := by
  have key : ∀ m : Fin 64, b64Char m.val ≠ '=' := by decide
  exact key ⟨n, h⟩

theorem stripEq_eq_nil_iff (l : List Char) : stripEq l = [] ↔ ∀ c ∈ l, c = '=' := by
  induction l with
  | nil => simp [stripEq]
  | cons c rest ih =>
    rw [stripEq_cons]
    constructor
    · intro h
      by_cases h1 : stripEq rest = []
      · rw [if_pos h1] at h
        by_cases h2 : c = '='
        · intro x hx
          rcases List.mem_cons.mp hx with rfl | hx
          · exact h2
          · exact (ih.mp h1) x hx
        · rw [if_neg h2] at h
          cases h
      · rw [if_neg h1] at h
        cases h
    · intro h
      have h1 : stripEq rest = [] := ih.mpr (fun x hx => h x (List.mem_cons_of_mem c hx))
      rw [if_pos h1, if_pos (h c (by simp))]

theorem stripEq_append_pads (u v : List Char) (hv : ∀ c ∈ v, c = '=') :
    stripEq (u ++ v) = stripEq u := by
  induction u with
  | nil => exact (stripEq_eq_nil_iff v).mpr hv
  | cons c cs ih =>
    rw [List.cons_append, stripEq_cons, ih, ← stripEq_cons]

theorem stripEq_no_pad (l : List Char) (hl : ∀ c ∈ l, c ≠ '=') : stripEq l = l := by
  induction l with
  | nil => rfl
  | cons c rest ih =>
    have ihr : stripEq rest = rest := ih (fun x hx => hl x (List.mem_cons_of_mem c hx))
    rw [stripEq_cons, ihr]
    cases rest with
    | nil => simp [hl c (by simp)]
    | cons x xs => simp

theorem stripEq_append_of_ne (u v : List Char) (hv : stripEq v ≠ []) :
    stripEq (u ++ v) = u ++ stripEq v := by
  induction u with
  | nil => rfl
  | cons c cs ih =>
    rw [List.cons_append, stripEq_cons, ih]
    rw [if_neg (by
      intro hc
      rcases List.append_eq_nil.mp hc with ⟨_, h2⟩
      exact hv h2)]
    rfl

theorem stripEq_enc_ne_nil (s : Bytes) (hs0 : s ≠ []) (hs : ∀ b ∈ s, b < 256) :
    stripEq (b64Encode s) ≠ [] := by
  intro hc
  rw [stripEq_eq_nil_iff] at hc
  cases s with
  | nil => exact hs0 rfl
  | cons a rest =>
    have ha : a < 256 := hs a (by simp)
    have hhead : b64Char (a / 4) ∈ b64Encode (a :: rest) := by
      cases rest with
      | nil => simp [b64Encode]
      | cons b rest2 =>
        cases rest2 with
        | nil => simp [b64Encode]
        | cons cc rest3 => simp [b64Encode]
    exact b64Char_ne_pad (a / 4) (by omega) (hc _ hhead)

theorem b64_roundtrip (s : Bytes) (hs : ∀ b ∈ s, b < 256) :
    b64Decode (stripEq (b64Encode s)) = s := by
  induction s using b64Encode.induct with
  | case1 => rfl
  | case2 a =>
    have ha : a < 256 := hs a (by simp)
    show b64Decode (stripEq ([b64Char (a / 4), b64Char (a % 4 * 16)] ++ ['=', '='])) = [a]
    rw [stripEq_append_pads _ _ (by decide)]
    rw [stripEq_no_pad _ (by
      intro c hc
      rcases List.mem_cons.mp hc with rfl | hc
      · exact b64Char_ne_pad _ (by omega)
      · rcases List.mem_singleton.mp hc with rfl
        exact b64Char_ne_pad _ (by omega))]
    unfold b64Decode
    rw [show [b64Char (a / 4), b64Char (a % 4 * 16)].filterMap b64CharVal
        = [a / 4, a % 4 * 16] from by
      simp [List.filterMap_cons, charVal_b64Char _ (by omega : a / 4 < 64),
        charVal_b64Char _ (by omega : a % 4 * 16 < 64)]]
    show [a / 4 * 4 + a % 4 * 16 / 16] = [a]
    congr 1
    omega
  | case3 a b =>
    have ha : a < 256 := hs a (by simp)
    have hb : b < 256 := hs b (by simp)
    show b64Decode (stripEq ([b64Char (a / 4), b64Char (a % 4 * 16 + b / 16),
        b64Char (b % 16 * 4)] ++ ['='])) = [a, b]
    rw [stripEq_append_pads _ _ (by decide)]
    rw [stripEq_no_pad _ (by
      intro c hc
      rcases List.mem_cons.mp hc with rfl | hc
      · exact b64Char_ne_pad _ (by omega)
      · rcases List.mem_cons.mp hc with rfl | hc
        · exact b64Char_ne_pad _ (by omega)
        · rcases List.mem_singleton.mp hc with rfl
          exact b64Char_ne_pad _ (by omega))]
    unfold b64Decode
    rw [show [b64Char (a / 4), b64Char (a % 4 * 16 + b / 16),
        b64Char (b % 16 * 4)].filterMap b64CharVal
        = [a / 4, a % 4 * 16 + b / 16, b % 16 * 4] from by
      simp [List.filterMap_cons, charVal_b64Char _ (by omega : a / 4 < 64),
        charVal_b64Char _ (by omega : a % 4 * 16 + b / 16 < 64),
        charVal_b64Char _ (by omega : b % 16 * 4 < 64)]]
    show [a / 4 * 4 + (a % 4 * 16 + b / 16) / 16,
      (a % 4 * 16 + b / 16) % 16 * 16 + b % 16 * 4 / 4] = [a, b]
    have e1 : a / 4 * 4 + (a % 4 * 16 + b / 16) / 16 = a := by omega
    have e2 : (a % 4 * 16 + b / 16) % 16 * 16 + b % 16 * 4 / 4 = b := by omega
    rw [e1, e2]
  | case4 a b cc rest ih =>
    have ha : a < 256 := hs a (by simp)
    have hb : b < 256 := hs b (by simp)
    have hcc : cc < 256 := hs cc (by simp)
    have hrest : ∀ x ∈ rest, x < 256 := fun x hx => hs x (by simp [hx])
    show b64Decode (stripEq ([b64Char (a / 4), b64Char (a % 4 * 16 + b / 16),
        b64Char (b % 16 * 4 + cc / 64), b64Char (cc % 64)] ++ b64Encode rest))
      = a :: b :: cc :: rest
    have hchunk : ∀ c ∈ [b64Char (a / 4), b64Char (a % 4 * 16 + b / 16),
        b64Char (b % 16 * 4 + cc / 64), b64Char (cc % 64)], c ≠ '=' := by
      intro c hc
      rcases List.mem_cons.mp hc with rfl | hc
      · exact b64Char_ne_pad _ (by omega)
      · rcases List.mem_cons.mp hc with rfl | hc
        · exact b64Char_ne_pad _ (by omega)
        · rcases List.mem_cons.mp hc with rfl | hc
          · exact b64Char_ne_pad _ (by omega)
          · rcases List.mem_singleton.mp hc with rfl
            exact b64Char_ne_pad _ (by omega)
    have hfm : [b64Char (a / 4), b64Char (a % 4 * 16 + b / 16),
        b64Char (b % 16 * 4 + cc / 64), b64Char (cc % 64)].filterMap b64CharVal
        = [a / 4, a % 4 * 16 + b / 16, b % 16 * 4 + cc / 64, cc % 64] := by
      simp [List.filterMap_cons, charVal_b64Char _ (by omega : a / 4 < 64),
        charVal_b64Char _ (by omega : a % 4 * 16 + b / 16 < 64),
        charVal_b64Char _ (by omega : b % 16 * 4 + cc / 64 < 64),
        charVal_b64Char _ (by omega : cc % 64 < 64)]
    have e1 : a / 4 * 4 + (a % 4 * 16 + b / 16) / 16 = a := by omega
    have e2 : (a % 4 * 16 + b / 16) % 16 * 16 + (b % 16 * 4 + cc / 64) / 4 = b := by omega
    have e3 : (b % 16 * 4 + cc / 64) % 4 * 64 + cc % 64 = cc := by omega
    by_cases hr : rest = []
    · subst hr
      show b64Decode (stripEq ([b64Char (a / 4), b64Char (a % 4 * 16 + b / 16),
          b64Char (b % 16 * 4 + cc / 64), b64Char (cc % 64)] ++ [])) = [a, b, cc]
      rw [List.append_nil, stripEq_no_pad _ hchunk]
      unfold b64Decode
      rw [hfm]
      show [a / 4 * 4 + (a % 4 * 16 + b / 16) / 16,
        (a % 4 * 16 + b / 16) % 16 * 16 + (b % 16 * 4 + cc / 64) / 4,
        (b % 16 * 4 + cc / 64) % 4 * 64 + cc % 64] = [a, b, cc]
      rw [e1, e2, e3]
    · rw [stripEq_append_of_ne _ _ (stripEq_enc_ne_nil rest hr hrest)]
      unfold b64Decode
      rw [List.filterMap_append, hfm]
      have htail := ih hrest
      unfold b64Decode at htail
      show (a / 4 * 4 + (a % 4 * 16 + b / 16) / 16)
          :: ((a % 4 * 16 + b / 16) % 16 * 16 + (b % 16 * 4 + cc / 64) / 4)
          :: ((b % 16 * 4 + cc / 64) % 4 * 64 + cc % 64)
          :: b64DecodeVals ((stripEq (b64Encode rest)).filterMap b64CharVal)
        = a :: b :: cc :: rest
      rw [e1, e2, e3, htail]

end NjsCrypt

namespace NjsCrypt

theorem map_id_on (f : Char → Char) (l : List Char) (h : ∀ c ∈ l, f c = c) :
    l.map f = l := by
  induction l with
  | nil => rfl
  | cons c rest ih =>
    rw [List.map_cons, h c (by simp), ih (fun x hx => h x (List.mem_cons_of_mem c hx))]

/-- C8: for any byte sequence (the UTF-8 bytes of a name) the GCM name
codec round-trips — `decode (encode s) = s` — and encoding is injective.
`gks` is the GCM keystream under the fixed zero nonce, `tagFn` the
16-byte authentication tag of a ciphertext; the theorem holds for every
such pair, hence for AES-256-GCM under every key. -/
theorem c8_name_codec (gks : Nat → Nat) (tagFn : Bytes → Bytes)
    (hg : ∀ i, gks i < 256)
    (htl : ∀ x, (tagFn x).length = 16)
    (htv : ∀ x, ∀ b ∈ tagFn x, b < 256) :
    (∀ s : Bytes, (∀ b ∈ s, b < 256) →
      decodeName gks tagFn (encodeName gks tagFn s) = some s)
    ∧ (∀ s1 s2 : Bytes, (∀ b ∈ s1, b < 256) → (∀ b ∈ s2, b < 256) → s1 ≠ s2 →
      encodeName gks tagFn s1 ≠ encodeName gks tagFn s2) := by
  have hrt : ∀ s : Bytes, (∀ b ∈ s, b < 256) →
      decodeName gks tagFn (encodeName gks tagFn s) = some s := by
    intro s hs
    have hcbytes : ∀ b ∈ gXor gks s, b < 256 := gXorFrom_lt gks hg 0 s hs
    have hTbytes : ∀ b ∈ tagFn (gXor gks s) ++ gXor gks s, b < 256 := by
      intro b hb
      rcases List.mem_append.mp hb with hb | hb
      · exact htv (gXor gks s) b hb
      · exact hcbytes b hb
    unfold encodeName decodeName
    have hmap : (stripEq ((b64Encode (tagFn (gXor gks s) ++ gXor gks s)).map
        urlSafeChar)).map unUrlSafeChar
        = stripEq (b64Encode (tagFn (gXor gks s) ++ gXor gks s)) := by
      rw [stripEq_map_pad urlSafeChar urlSafeChar_pad_iff]
      rw [List.map_map]
      apply map_id_on
      intro c hc
      have hmem := mem_stripEq _ c hc
      rcases b64Encode_chars _ hTbytes c hmem with rfl | ⟨n, hn, rfl⟩
      · decide
      · exact unUrl_url_b64Char n hn
    rw [hmap, b64_roundtrip _ hTbytes]
    simp only [List.take_left' (htl (gXor gks s)), List.drop_left' (htl (gXor gks s))]
    rw [if_pos trivial, gXor_involutive]
  refine ⟨hrt, ?_⟩
  intro s1 s2 h1 h2 hne heq
  have hd := hrt s1 h1
  rw [heq, hrt s2 h2] at hd
  exact hne (Option.some.inj hd).symm

theorem c8_name_codec_w :
    decodeName (fun _ => 0) (fun _ => zeros 16)
        (encodeName (fun _ => 0) (fun _ => zeros 16) [104, 105]) = some [104, 105]
    ∧ encodeName (fun _ => 0) (fun _ => zeros 16) [0]
        ≠ encodeName (fun _ => 0) (fun _ => zeros 16) [1] := by
  have key := c8_name_codec (fun _ => 0) (fun _ => zeros 16)
    (fun _ => by norm_num)
    (fun _ => zeros_length 16)
    (fun x b hb => by
      have hb0 : b = 0 := List.eq_of_mem_replicate hb
      omega)
  exact ⟨key.1 [104, 105] (by decide), key.2 [0] [1] (by decide) (by decide) (by decide)⟩

end NjsCrypt

namespace NjsCrypt

/-! ## Write-loop infrastructure (C4, C2, C1) -/

theorem ctrXorFrom_length (ks : Nat → Nat → Nat) (iv : Nat) :
    ∀ (j : Nat) (data : Bytes), (ctrXorFrom ks iv j data).length = data.length := by
  intro j data
  induction data generalizing j with
  | nil => rfl
  | cons b rest ih => simp [ctrXorFrom, ih]

theorem ctrXor_length (ks : Nat → Nat → Nat) (iv : Nat) (data : Bytes) :
    (ctrXor ks iv data).length = data.length :=
  ctrXorFrom_length ks iv 0 data

theorem encryptCTR_length (ks : Nat → Nat → Nat) (nonce : Bytes) (c : Nat)
    (d e : Bytes) (h : encryptCTR ks nonce c d = some e) : e.length = d.length := by
  unfold encryptCTR at h
  cases hd : deriveCounterIV nonce c with
  | none => rw [hd] at h; cases h
  | some iv =>
    rw [hd] at h
    simp only [Option.map_some'] at h
    cases h
    exact ctrXor_length ks iv d

theorem decryptCTR_length (ks : Nat → Nat → Nat) (nonce : Bytes) (c : Nat)
    (d e : Bytes) (h : decryptCTR ks nonce c d = some e) : e.length = d.length :=
  encryptCTR_length ks nonce c d e h

theorem encBuf_length (f : Bytes) (crl cpos : Nat) :
    (padTo crl (fsRead f crl cpos)).length = crl := by
  rw [padTo_length, fsRead_length]
  omega

theorem dvd16_mul (B : Nat) (h16 : 16 ∣ B) (k : Nat) : 16 ∣ k * B :=
  Dvd.dvd.mul_left h16 k

theorem cbs_cancel (B : Nat) (h16 : 16 ∣ B) (k : Nat) : k * B / 16 * 16 = k * B :=
  Nat.div_mul_cancel (dvd16_mul B h16 k)

/-- Length, divisibility and upper bound for the write block loop. -/
theorem cryptWriteLoop_len (ks : Nat → Nat → Nat) (B : Nat) (nonce buf : Bytes)
    (off wend : Nat) (hB : 0 < B) (h16 : 16 ∣ B) :
    ∀ (cnt k : Nat) (f : Bytes) (tr : List FsEvent) (bw : Nat)
      (out : Bytes × List FsEvent × Nat),
      cryptWriteLoop ks B nonce buf off wend cnt k f tr bw = some out →
      out.1.length ≤ max f.length (META_SIZE + max ((k + cnt) * B) ((wend + 15) / 16 * 16))
      ∧ (16 ∣ (f.length - META_SIZE) → META_SIZE ≤ f.length →
          16 ∣ (out.1.length - META_SIZE) ∧ META_SIZE ≤ out.1.length) := by
  intro cnt
  induction cnt with
  | zero =>
    intro k f tr bw out h
    cases h
    exact ⟨le_max_left _ _, fun h1 h2 => ⟨h1, h2⟩⟩
  | succ cnt ih =>
    intro k f tr bw out h
    simp only [cryptWriteLoop, AES_BLOCK_eq, META_SIZE_eq] at h
    rw [cbs_cancel B h16 k] at h
    split at h
    · exact absurd h (by simp)
    · rename_i plain0 hdec
      have hlen0 : plain0.length = (max (k * B + B) wend - k * B + 15) / 16 * 16 := by
        rw [decryptCTR_length _ _ _ _ _ hdec, encBuf_length]
      rw [hlen0, if_neg (lt_irrefl _)] at h
      split at h
      · exact absurd h (by simp)
      · rename_i encNew henc
        have hencNew : encNew.length = (max (k * B + B) wend - k * B + 15) / 16 * 16 := by
          rw [encryptCTR_length _ _ _ _ _ henc, copyInto_length, hlen0]
        have hih := ih (k + 1) (fsWrite f encNew (24 + k * B)) _ _ out h
        have hf' : (fsWrite f encNew (24 + k * B)).length
            = max f.length (24 + k * B + (max (k * B + B) wend - k * B + 15) / 16 * 16) := by
          rw [fsWrite_length, hencNew]
        have hkB : 16 ∣ k * B := dvd16_mul B h16 k
        have e1 : (k + 1) * B = k * B + B := by ring
        have e7 : (k + 1 + cnt) * B = (k + (cnt + 1)) * B := by ring
        have e8 : (k + 1) * B ≤ (k + (cnt + 1)) * B :=
          Nat.mul_le_mul_right B (by omega)
        have hend : 24 + k * B + (max (k * B + B) wend - k * B + 15) / 16 * 16
            ≤ 24 + max ((k + 1) * B) ((wend + 15) / 16 * 16) := by
          rcases le_or_lt wend (k * B + B) with hc | hc
          · have e2 : max (k * B + B) wend = k * B + B := by omega
            rw [e2, e1]
            have e4 : k * B + B - k * B = B := by omega
            rw [e4]
            have e3 : (B + 15) / 16 * 16 = B := by omega
            rw [e3]
            omega
          · have e2 : max (k * B + B) wend = wend := by omega
            rw [e2, e1]
            have e5 : k * B ≤ wend := by omega
            have e6 : (wend - k * B + 15) / 16 * 16 + k * B ≤ (wend + 15) / 16 * 16 := by
              omega
            omega
        have hcrl16 : 16 ∣ (max (k * B + B) wend - k * B + 15) / 16 * 16 :=
          Dvd.dvd.mul_left (dvd_refl 16) _
        simp only [META_SIZE_eq]
        constructor
        · have h1 := hih.1
          rw [hf', e7] at h1
          simp only [META_SIZE_eq] at h1
          omega
        · intro hd1 hd2
          have h2 := hih.2 (by simp only [META_SIZE_eq]; rw [hf']; omega)
            (by simp only [META_SIZE_eq]; rw [hf']; omega)
          simp only [META_SIZE_eq] at h2
          exact h2

end NjsCrypt

namespace NjsCrypt

theorem neg_one_fdiv (B : Nat) (hB : 0 < B) : (-1 : Int).fdiv (B : Int) = -1 := by
  obtain ⟨b, rfl⟩ := Nat.exists_eq_add_of_lt hB
  show Int.negSucc (0 / (0 + b + 1)) = -1
  rw [Nat.zero_div]
  rfl

theorem lastB_nat (wend B : Nat) (hB : 0 < B) (hw : 1 ≤ wend) :
    ((wend : Int) - 1).fdiv (B : Int) = (((wend - 1) / B : Nat) : Int) := by
  have e : ((wend : Int) - 1) = (((wend - 1 : Nat)) : Int) := by push_cast [hw]; ring
  rw [e, fdiv_nonneg_toNat _ _ (by positivity) (by exact_mod_cast hB)]
  simp

/-- The number of loop iterations computed by `cryptWrite`, and the facts
about it the count argument needs. -/
theorem writeCnt_spec (off wlen B : Nat) (hB : 0 < B) :
    ∃ cnt : Nat,
      ((((off + wlen : Nat) : Int) - 1).fdiv (B : Int) - ((off / B : Nat) : Int) + 1).toNat
          = cnt
      ∧ (cnt = 0 ∨ (off / B + cnt - 1) * B < off + wlen)
      ∧ (cnt = 0 → wlen = 0)
      ∧ (0 < cnt → off + wlen ≤ (off / B + cnt) * B) := by
  rcases Nat.eq_zero_or_pos (off + wlen) with hw0 | hw1
  · have hoff : off = 0 := by omega
    have hwl : wlen = 0 := by omega
    subst hoff
    subst hwl
    refine ⟨0, ?_, Or.inl rfl, fun _ => rfl, fun hc => absurd hc (by omega)⟩
    rw [Nat.zero_div]
    have e1 : (((0 + 0 : Nat) : Int) - 1) = -1 := by norm_num
    rw [e1, neg_one_fdiv B hB]
    decide
  · rw [lastB_nat (off + wlen) B hB hw1]
    have hLB : (off + wlen - 1) / B * B ≤ off + wlen - 1 := Nat.div_mul_le_self _ _
    have hLB2 := Nat.div_add_mod' (off + wlen - 1) B
    have hmod : (off + wlen - 1) % B < B := Nat.mod_lt _ hB
    set k0 := off / B with hk0
    set L := (off + wlen - 1) / B with hL
    clear_value k0 L
    refine ⟨L + 1 - k0, by omega, ?_, ?_, ?_⟩
    · rcases Nat.lt_or_ge L k0 with hk | hk
      · exact Or.inl (by omega)
      · refine Or.inr ?_
        have e2 : k0 + (L + 1 - k0) - 1 = L := by omega
        rw [e2]
        omega
    · intro hc
      by_contra hne
      have h4 : off ≤ off + wlen - 1 := by omega
      have h5 := Nat.div_le_div_right (c := B) h4
      rw [← hk0, ← hL] at h5
      omega
    · intro hc
      have e3 : k0 + (L + 1 - k0) = L + 1 := by omega
      rw [e3]
      have e4 : (L + 1) * B = L * B + B := by ring
      omega

end NjsCrypt

namespace NjsCrypt

/-- Returned byte count and event-trace shape of the write block loop. -/
theorem cryptWriteLoop_count_trace (ks : Nat → Nat → Nat) (B : Nat) (nonce buf : Bytes)
    (off wend : Nat) (hB : 0 < B) (h16 : 16 ∣ B) :
    ∀ (cnt k : Nat) (f : Bytes) (tr : List FsEvent) (bw : Nat)
      (out : Bytes × List FsEvent × Nat),
      cryptWriteLoop ks B nonce buf off wend cnt k f tr bw = some out →
      off < (k + 1) * B →
      (cnt = 0 ∨ (k + cnt - 1) * B < wend) →
      (bw = min wend (k * B) - off → out.2.2 = min wend ((k + cnt) * B) - off)
      ∧ (∃ suf, out.2.1 = tr ++ suf
          ∧ ∀ e ∈ suf, ∃ p d, e = FsEvent.write p d ∧ META_SIZE ≤ p) := by
  intro cnt
  induction cnt with
  | zero =>
    intro k f tr bw out h hoff hcnt
    cases h
    refine ⟨fun hbw => by simpa using hbw, [], by simp, by simp⟩
  | succ cnt ih =>
    intro k f tr bw out h hoff hcnt
    simp only [cryptWriteLoop, AES_BLOCK_eq, META_SIZE_eq] at h
    rw [cbs_cancel B h16 k] at h
    split at h
    · exact absurd h (by simp)
    · rename_i plain0 hdec
      split at h
      · exact absurd h (by simp)
      · rename_i encNew henc
        have hlastP : (k + cnt) * B < wend := by
          rcases hcnt with hc | hc
          · cases hc
          · have e : k + (cnt + 1) - 1 = k + cnt := by omega
            rw [e] at hc
            exact hc
        have hkBw : k * B < wend := by
          have := Nat.mul_le_mul_right B (show k ≤ k + cnt by omega)
          omega
        have e1 : (k + 1) * B = k * B + B := by ring
        have hih := ih (k + 1) _ _ _ out h
          (by
            have := Nat.mul_le_mul_right B (show k + 1 ≤ k + 1 + 1 by omega)
            omega)
          (by
            rcases Nat.eq_zero_or_pos cnt with hc0 | hc1
            · exact Or.inl hc0
            · refine Or.inr ?_
              have e2 : k + 1 + cnt - 1 = k + cnt := by omega
              rw [e2]
              exact hlastP)
        refine ⟨?_, ?_⟩
        · intro hbw
          have hbw' : bw + (min wend (k * B + B) - max off (k * B))
              = min wend ((k + 1) * B) - off := by
            rw [e1, hbw]
            omega
          have := hih.1 hbw'
          have e7 : (k + 1 + cnt) * B = (k + (cnt + 1)) * B := by ring
          rw [e7] at this
          exact this
        · obtain ⟨suf, hsuf, hall⟩ := hih.2
          refine ⟨FsEvent.write (24 + k * B) encNew :: suf, ?_, ?_⟩
          · rw [hsuf, List.append_assoc]
            rfl
          · intro e he
            rcases List.mem_cons.mp he with rfl | he
            · exact ⟨24 + k * B, encNew, rfl, by rw [META_SIZE_eq]; omega⟩
            · exact hall e he

end NjsCrypt

namespace NjsCrypt

/-- C4: on the encrypted store, `write` lazily initialises the header —
carrying the fresh random nonce — as its first backing write when the
backing file is shorter than `META_SIZE`; the stored size becomes
`max(S, off + |buf|)`; the 8-byte size field is rewritten as the very
last backing write, after all body-block writes (which land at offsets
`≥ META_SIZE`); and on success the returned count equals `|buf|`. -/
theorem c4_write_contract (ks : Nat → Nat → Nat) (B : Nat) (rnd file buf : Bytes)
    (off : Nat) (out : Bytes × List FsEvent × Nat)
    (hB : 0 < B) (h16 : 16 ∣ B)
    (h : cryptWrite ks B rnd file buf off = some out) :
    out.2.2 = buf.length
    ∧ beI (out.1.take 8)
        = max (if file.length < META_SIZE then 0 else beI (fsRead file 8 0))
            ((off + buf.length : Nat) : Int)
    ∧ ∃ body, out.2.1
          = (if file.length < META_SIZE then [FsEvent.write 0 (createHeader rnd)] else [])
            ++ body
            ++ [FsEvent.write 0 (beBytes8
                  (max (if file.length < META_SIZE then 0 else beI (fsRead file 8 0))
                    ((off + buf.length : Nat) : Int)))]
        ∧ ∀ e ∈ body, ∃ p d, e = FsEvent.write p d ∧ META_SIZE ≤ p := by
  obtain ⟨cnt, hcnt_eq, hcnt2, hcnt3, hcnt4⟩ := writeCnt_spec off buf.length B hB
  simp only [cryptWrite] at h
  rw [hcnt_eq] at h
  set S0 : Int := (if file.length < META_SIZE then 0 else beI (fsRead file 8 0)) with hS0
  set tr0 : List FsEvent :=
    (if file.length < META_SIZE then [FsEvent.write 0 (createHeader rnd)]
     else ([] : List FsEvent)) with ht0
  set nonce0 : Bytes :=
    (if file.length < META_SIZE then rnd else (fsRead file META_SIZE 0).drop 8) with hn0
  set f0 : Bytes :=
    (if file.length < META_SIZE then fsWrite file (createHeader rnd) 0 else file) with hf0
  set k0 := off / B with hk0v
  clear_value k0
  split at h
  · exact absurd h (by simp)
  · rename_i f1 tr1 bw hloop
    by_cases hguard : -(2 ^ 63) ≤ max S0 ((off + buf.length : Nat) : Int)
        ∧ max S0 ((off + buf.length : Nat) : Int) < 2 ^ 63
    · rw [if_pos hguard] at h
      have hdm := Nat.div_add_mod' off B
      have hmod : off % B < B := Nat.mod_lt off hB
      rw [← hk0v] at hdm
      have hofflt : off < (k0 + 1) * B := by
        have e : (k0 + 1) * B = k0 * B + B := by ring
        omega
      have hmain := cryptWriteLoop_count_trace ks B nonce0 buf off (off + buf.length) hB h16
        cnt k0 f0 tr0 0 (f1, tr1, bw) hloop hofflt hcnt2
      have hk0B : k0 * B ≤ off := by
        have := Nat.div_mul_le_self off B
        rw [← hk0v] at this
        exact this
      have hbw0 : (0 : Nat) = min (off + buf.length) (k0 * B) - off := by
        clear hcnt_eq hk0v
        omega
      have hbw := hmain.1 hbw0
      have hbwlen : bw = buf.length := by
        rcases Nat.eq_zero_or_pos cnt with hc | hc
        · have hl0 := hcnt3 hc
          subst hc
          have e : (k0 + 0) * B = k0 * B := by ring
          rw [e] at hbw
          have hbwr : bw = min (off + buf.length) (k0 * B) - off := hbw
          have hmin : min (off + buf.length) (k0 * B) = k0 * B :=
            min_eq_right (by omega)
          rw [hmin] at hbwr
          omega
        · have h4 := hcnt4 hc
          have hbwr : bw = min (off + buf.length) ((k0 + cnt) * B) - off := hbw
          have hmin : min (off + buf.length) ((k0 + cnt) * B) = off + buf.length :=
            min_eq_left h4
          rw [hmin] at hbwr
          omega
      obtain ⟨suf, hsuf, hall⟩ := hmain.2
      cases h
      refine ⟨hbwlen, ?_, suf, ?_, hall⟩
      · show beI ((fsWrite f1 (beBytes8 _) 0).take 8) = _
        rw [sizeField_take]
        exact beI_beBytes8 _ hguard.1 hguard.2
      · show tr1 ++ [FsEvent.write 0 (beBytes8 _)] = _
        have hsuf2 : tr1 = tr0 ++ suf := hsuf
        rw [hsuf2, List.append_assoc]
    · rw [if_neg hguard] at h
      exact absurd h (by simp)

theorem c4_write_contract_w :
    cryptWrite (fun _ _ => 0) 16 (List.replicate 16 0) [] [104, 101, 108, 108, 111] 0
        = some c4out
    ∧ (c4out.2.2 = ([104, 101, 108, 108, 111] : Bytes).length
       ∧ beI (c4out.1.take 8)
           = max (if ([] : Bytes).length < META_SIZE then 0 else beI (fsRead [] 8 0))
               ((0 + ([104, 101, 108, 108, 111] : Bytes).length : Nat) : Int)
       ∧ ∃ body, c4out.2.1
             = (if ([] : Bytes).length < META_SIZE
                  then [FsEvent.write 0 (createHeader (List.replicate 16 0))] else [])
               ++ body
               ++ [FsEvent.write 0 (beBytes8
                     (max (if ([] : Bytes).length < META_SIZE then 0
                             else beI (fsRead [] 8 0))
                       ((0 + ([104, 101, 108, 108, 111] : Bytes).length : Nat) : Int)))]
           ∧ ∀ e ∈ body, ∃ p d, e = FsEvent.write p d ∧ META_SIZE ≤ p) :=
  ⟨by decide,
   c4_write_contract (fun _ _ => 0) 16 (List.replicate 16 0) [] [104, 101, 108, 108, 111] 0
     c4out (by decide) (by decide) (by decide)⟩

end NjsCrypt

namespace NjsCrypt

/-! ## The closed-file invariant (per-operation preservation) -/

theorem le_mul_ceil (B n : Nat) (hB : 0 < B) : n ≤ B * ((n + B - 1) / B) := by
  have h1 := Nat.div_add_mod (n + B - 1) B
  have h2 : (n + B - 1) % B < B := Nat.mod_lt _ hB
  set q := (n + B - 1) / B with hq
  set r := (n + B - 1) % B with hr
  clear_value q r
  omega

theorem mul_ceil_mono (B a b : Nat) (h : a ≤ b) :
    B * ((a + B - 1) / B) ≤ B * ((b + B - 1) / B) :=
  Nat.mul_le_mul_left B (Nat.div_le_div_right (by omega))

theorem ceil16_le_mul_ceil (B n : Nat) (hB : 0 < B) (h16 : 16 ∣ B) :
    (n + 15) / 16 * 16 ≤ B * ((n + B - 1) / B) := by
  obtain ⟨c, hc⟩ := h16
  have h1 := le_mul_ceil B n hB
  set q := (n + B - 1) / B with hq
  clear_value q
  rw [hc] at h1 ⊢
  have e1 : 16 * c * q = 16 * (c * q) := by ring
  rw [e1] at h1 ⊢
  have h2 : (n + 15) / 16 ≤ c * q := by
    have h3 : n + 15 ≤ 16 * (c * q) + 15 := by omega
    have h4 := Nat.div_le_div_right (c := 16) h3
    have h5 : (16 * (c * q) + 15) / 16 = c * q := by
      rw [Nat.mul_add_div (by norm_num)]
      norm_num
    omega
  calc (n + 15) / 16 * 16 ≤ c * q * 16 := Nat.mul_le_mul_right 16 h2
    _ = 16 * (c * q) := by ring

theorem blocks_le_mul_ceil (B m w : Nat) (hB : 0 < B) (h : (m - 1) * B < w) :
    m * B ≤ B * ((w + B - 1) / B) := by
  have h1 := le_mul_ceil B w hB
  set q := (w + B - 1) / B with hq
  clear_value q
  have h2 : (m - 1) * B < q * B := by
    have e : q * B = B * q := Nat.mul_comm q B
    omega
  have h3 : m - 1 < q := lt_of_mul_lt_mul_right h2 (Nat.zero_le B)
  calc m * B ≤ q * B := Nat.mul_le_mul_right B (by omega)
    _ = B * q := Nat.mul_comm q B

theorem fsRead_take8 (file : Bytes) : fsRead file 8 0 = file.take 8 := by
  simp [fsRead]

end NjsCrypt

namespace NjsCrypt

theorem cryptCreate_eq (rnd : Bytes) : cryptCreate rnd = createHeader rnd := by
  simp [cryptCreate, fsWrite, zeros]

theorem createHeader_length (rnd : Bytes) : (createHeader rnd).length = META_SIZE := by
  unfold createHeader
  rw [copyInto_length]
  simp [zeros]

theorem createHeader_take8 (rnd : Bytes) : (createHeader rnd).take 8 = zeros 8 := by
  unfold createHeader copyInto
  have hA : ((zeros META_SIZE).take 8).length = 8 := by
    simp [zeros, META_SIZE_eq]
  rw [List.append_assoc, List.take_left' hA]
  simp [zeros, META_SIZE_eq, List.take_replicate]

theorem closedInv_create (B : Nat) (rnd : Bytes) : closedInv B (cryptCreate rnd) := by
  rw [cryptCreate_eq]
  have hlen := createHeader_length rnd
  have ht8 := createHeader_take8 rnd
  refine ⟨le_of_eq hlen.symm, ?_, ?_, ?_⟩
  · rw [hlen]
    simp
  · rw [ht8]
    decide
  · rw [hlen, ht8]
    simp

theorem closedInv_truncate (B : Nat) (file f' : Bytes) (size : Int)
    (hB : 0 < B) (h16 : 16 ∣ B) (hs : 0 ≤ size)
    (h : cryptTruncate file size = some f') : closedInv B f' := by
  have h63 : size < 2 ^ 63 := by
    by_contra h63
    simp only [cryptTruncate] at h
    rw [if_neg (fun hg => h63 hg.2)] at h
    exact absurd h (by simp)
  have hf : f' = fsTruncate (fsWrite file (beBytes8 size) 0)
      (META_SIZE + (size.toNat + 15) / 16 * 16) := by
    rw [cryptTruncate_eq file size hs h63] at h
    exact (Option.some.inj h).symm
  subst hf
  have hlen := fsTruncate_length (fsWrite file (beBytes8 size) 0)
    (META_SIZE + (size.toNat + 15) / 16 * 16)
  have hwl := fsWrite_length file (beBytes8 size) 0
  rw [beBytes8_length] at hwl
  have ht8 : (fsTruncate (fsWrite file (beBytes8 size) 0)
      (META_SIZE + (size.toNat + 15) / 16 * 16)).take 8
      = beBytes8 size := by
    rw [fsTruncate_take _ _ 8 (by rw [META_SIZE_eq]; omega) (by omega)]
    exact sizeField_take file size
  have hbeI : beI ((fsTruncate (fsWrite file (beBytes8 size) 0)
      (META_SIZE + (size.toNat + 15) / 16 * 16)).take 8) = size := by
    rw [ht8]
    exact beI_beBytes8 size (by omega) h63
  refine ⟨?_, ?_, ?_, ?_⟩
  · rw [hlen]
    exact Nat.le_add_right _ _
  · rw [hlen, Nat.add_sub_cancel_left]
    exact ⟨(size.toNat + 15) / 16, by ring⟩
  · rw [hbeI]
    exact hs
  · rw [hbeI, hlen, Nat.add_sub_cancel_left]
    exact ceil16_le_mul_ceil B size.toNat hB h16

end NjsCrypt

namespace NjsCrypt

theorem closedInv_write (ks : Nat → Nat → Nat) (B : Nat) (rnd file buf : Bytes)
    (off : Nat) (out : Bytes × List FsEvent × Nat)
    (hB : 0 < B) (h16 : 16 ∣ B) (hinv : closedInv B file)
    (h : cryptWrite ks B rnd file buf off = some out) : closedInv B out.1 := by
  obtain ⟨hm, hdvd, hS0, hbound⟩ := hinv
  have hfr : ¬ file.length < META_SIZE := by omega
  obtain ⟨cnt, hcnt_eq, hcnt2, hcnt3, hcnt4⟩ := writeCnt_spec off buf.length B hB
  simp only [cryptWrite] at h
  rw [hcnt_eq] at h
  simp only [if_neg hfr] at h
  split at h
  · exact absurd h (by simp)
  · rename_i f1 tr1 bw hloop
    split at h
    · rename_i hguard
      have hl := cryptWriteLoop_len ks B ((fsRead file META_SIZE 0).drop 8) buf off
        (off + buf.length) hB h16 cnt (off / B) file [] 0 (f1, tr1, bw) hloop
      have hlen1 : f1.length
          ≤ max file.length (META_SIZE
              + max ((off / B + cnt) * B) ((off + buf.length + 15) / 16 * 16)) := hl.1
      obtain ⟨hd0, hm0⟩ := hl.2 hdvd hm
      have hd1 : 16 ∣ f1.length - META_SIZE := hd0
      have hm1 : META_SIZE ≤ f1.length := hm0
      clear hd0 hm0
      cases h
      simp only
      set nS : Int := max (beI (fsRead file 8 0)) ((off + buf.length : Nat) : Int) with hnS
      have hnS0 : 0 ≤ nS := le_trans (Int.natCast_nonneg _) (le_max_right _ _)
      have hFlen : (fsWrite f1 (beBytes8 nS) 0).length = f1.length := by
        rw [fsWrite_length, beBytes8_length]
        rw [META_SIZE_eq] at hm1
        omega
      have ht8 : (fsWrite f1 (beBytes8 nS) 0).take 8 = beBytes8 nS := sizeField_take f1 nS
      have hbeI : beI ((fsWrite f1 (beBytes8 nS) 0).take 8) = nS := by
        rw [ht8]
        exact beI_beBytes8 nS hguard.1 hguard.2
      have hwend : off + buf.length ≤ nS.toNat := by
        have h1 : ((off + buf.length : Nat) : Int) ≤ nS := le_max_right _ _
        have h2 := Int.toNat_le_toNat h1
        rwa [Int.toNat_natCast] at h2
      have hT := le_mul_ceil B nS.toNat hB
      have hSold : (beI (fsRead file 8 0)).toNat ≤ nS.toNat :=
        Int.toNat_le_toNat (le_max_left _ _)
      have hfileT : file.length - META_SIZE
          ≤ B * ((nS.toNat + B - 1) / B) := by
        rw [← fsRead_take8] at hbound
        calc file.length - META_SIZE
            ≤ B * (((beI (fsRead file 8 0)).toNat + B - 1) / B) := hbound
          _ ≤ B * ((nS.toNat + B - 1) / B) := mul_ceil_mono B _ _ (by omega)
      have hA : (off / B + cnt) * B ≤ B * ((nS.toNat + B - 1) / B) := by
        rcases Nat.eq_zero_or_pos cnt with hc | hc
        · subst hc
          have h1 : (off / B + 0) * B = off / B * B := by ring
          rw [h1]
          have h2 := Nat.div_mul_le_self off B
          omega
        · rcases hcnt2 with hc0 | hlt
          · omega
          · have h1 := blocks_le_mul_ceil B (off / B + cnt) (off + buf.length) hB hlt
            calc (off / B + cnt) * B ≤ B * ((off + buf.length + B - 1) / B) := h1
              _ ≤ B * ((nS.toNat + B - 1) / B) := mul_ceil_mono B _ _ hwend
      have hC : (off + buf.length + 15) / 16 * 16 ≤ B * ((nS.toNat + B - 1) / B) := by
        calc (off + buf.length + 15) / 16 * 16
            ≤ B * ((off + buf.length + B - 1) / B) := ceil16_le_mul_ceil B _ hB h16
          _ ≤ B * ((nS.toNat + B - 1) / B) := mul_ceil_mono B _ _ hwend
      have hcap : f1.length ≤ META_SIZE + B * ((nS.toNat + B - 1) / B) := by
        have h1 : max ((off / B + cnt) * B) ((off + buf.length + 15) / 16 * 16)
            ≤ B * ((nS.toNat + B - 1) / B) := max_le hA hC
        have h2 : file.length ≤ META_SIZE + B * ((nS.toNat + B - 1) / B) := by omega
        have h3 : META_SIZE
            + max ((off / B + cnt) * B) ((off + buf.length + 15) / 16 * 16)
            ≤ META_SIZE + B * ((nS.toNat + B - 1) / B) := by omega
        exact le_trans hlen1 (max_le h2 h3)
      clear_value nS
      clear hnS
      refine ⟨?_, ?_, ?_, ?_⟩
      · rw [hFlen]
        exact hm1
      · rw [hFlen]
        exact hd1
      · rw [hbeI]
        exact hnS0
      · rw [hbeI, hFlen]
        omega
    · exact absurd h (by simp)

end NjsCrypt

namespace NjsCrypt

theorem stepOp_closedInv (ks : Nat → Nat → Nat) (B : Nat) (file f' : Bytes) (op : CfsOp)
    (hB : 0 < B) (h16 : 16 ∣ B) (hwf : opWF op) (hinv : closedInv B file)
    (h : stepOp ks B file op = some f') : closedInv B f' := by
  cases op with
  | create rnd =>
    simp only [stepOp] at h
    cases h
    exact closedInv_create B rnd
  | write rnd buf off =>
    simp only [stepOp] at h
    obtain ⟨out, hw, hf'⟩ := Option.map_eq_some'.mp h
    subst hf'
    exact closedInv_write ks B rnd file buf off out hB h16 hinv hw
  | truncate size =>
    simp only [stepOp] at h
    exact closedInv_truncate B file f' size hB h16 hwf h

theorem runOps_closedInv (ks : Nat → Nat → Nat) (B : Nat) (hB : 0 < B) (h16 : 16 ∣ B) :
    ∀ (ops : List CfsOp) (file f : Bytes), (∀ op ∈ ops, opWF op) →
      closedInv B file → runOps ks B file ops = some f → closedInv B f := by
  intro ops
  induction ops with
  | nil =>
    intro file f _ hinv h
    cases h
    exact hinv
  | cons op rest ih =>
    intro file f hwf hinv h
    simp only [runOps] at h
    split at h
    · exact absurd h (by simp)
    · rename_i f1 hstep
      exact ih f1 f (fun o ho => hwf o (List.mem_cons_of_mem _ ho))
        (stepOp_closedInv ks B file f1 op hB h16 (hwf op (List.mem_cons_self _ _)) hinv hstep)
        h

/-- C2 (amended): after any sequence of operations on an encrypted file
that begins with `create` — with a positive plaintext block size `B` that
is a multiple of `AES_BLOCK` and well-formed arguments (16-byte nonces,
non-negative truncate sizes) — the backing file holds a complete header,
the physical body length `P` is a multiple of `AES_BLOCK = 16`, the
stored size field `S` is non-negative, and `P ≤ ceil(S / B) * B`.  The
claim's `AES_BLOCK`-granular bound `P ≤ ceil(S / 16) * 16` fails (see the
counterexample) because the write loop rewrites whole `B`-byte plaintext
blocks. -/
theorem c2_closed_file_invariant (ks : Nat → Nat → Nat) (B : Nat) (f0 rnd : Bytes)
    (ops : List CfsOp) (f : Bytes) (hB : 0 < B) (h16 : 16 ∣ B)
    (hwf : ∀ op ∈ ops, opWF op)
    (h : runOps ks B f0 (CfsOp.create rnd :: ops) = some f) :
    closedInv B f := by
  simp only [runOps, stepOp] at h
  exact runOps_closedInv ks B hB h16 ops (cryptCreate rnd) f hwf (closedInv_create B rnd) h

theorem c2_closed_file_invariant_w :
    runOps (fun _ _ => 0) 16 []
        (CfsOp.create (zeros 16)
          :: [CfsOp.write (zeros 16) [104, 101, 108, 108, 111] 0, CfsOp.truncate 3])
      = some c2file
    ∧ closedInv 16 c2file :=
  ⟨by decide,
   c2_closed_file_invariant (fun _ _ => 0) 16 [] (zeros 16)
     [CfsOp.write (zeros 16) [104, 101, 108, 108, 111] 0, CfsOp.truncate 3] c2file
     (by decide) (by decide) (by decide) (by decide)⟩

end NjsCrypt

namespace NjsCrypt

/-! ## Keystream-segment toolkit for the round-trip claim -/

theorem encSeg_length (ks : Nat → Nat → Nat) (nonce : Bytes) :
    ∀ (x : Bytes) (s : Nat), (encSeg ks nonce s x).length = x.length := by
  intro x
  induction x with
  | nil => intro s; rfl
  | cons b rest ih => intro s; simp [encSeg, ih]

theorem encSeg_append (ks : Nat → Nat → Nat) (nonce : Bytes) :
    ∀ (x y : Bytes) (s : Nat),
      encSeg ks nonce s (x ++ y) = encSeg ks nonce s x ++ encSeg ks nonce (s + x.length) y := by
  intro x
  induction x with
  | nil => intro y s; simp [encSeg]
  | cons b rest ih =>
    intro y s
    simp only [List.cons_append, encSeg, List.length_cons, List.append_eq]
    congr 1
    rw [ih y (s + 1)]
    have e : s + 1 + rest.length = s + (rest.length + 1) := by omega
    rw [e]

theorem encSeg_involutive (ks : Nat → Nat → Nat) (nonce : Bytes) :
    ∀ (x : Bytes) (s : Nat), encSeg ks nonce s (encSeg ks nonce s x) = x := by
  intro x
  induction x with
  | nil => intro s; rfl
  | cons b rest ih =>
    intro s
    simp only [encSeg, ih]
    congr 1
    exact Nat.xor_cancel_right _ _

theorem encSeg_take (ks : Nat → Nat → Nat) (nonce : Bytes) :
    ∀ (x : Bytes) (s n : Nat), (encSeg ks nonce s x).take n = encSeg ks nonce s (x.take n) := by
  intro x
  induction x with
  | nil => intro s n; simp [encSeg]
  | cons b rest ih =>
    intro s n
    cases n with
    | zero => simp [encSeg]
    | succ n => simp only [encSeg, List.take_succ_cons, ih]

theorem encSeg_drop (ks : Nat → Nat → Nat) (nonce : Bytes) :
    ∀ (x : Bytes) (s n : Nat), (encSeg ks nonce s x).drop n = encSeg ks nonce (s + n) (x.drop n) := by
  intro x
  induction x with
  | nil => intro s n; simp [encSeg]
  | cons b rest ih =>
    intro s n
    cases n with
    | zero => simp [encSeg]
    | succ n =>
      simp only [encSeg, List.drop_succ_cons, ih]
      have e : s + 1 + n = s + (n + 1) := by omega
      rw [e]

theorem ctrXorFrom_eq_encSeg (ks : Nat → Nat → Nat) (nonce : Bytes) (c : Nat) :
    ∀ (x : Bytes) (j : Nat),
      ctrXorFrom ks (beU (nonce.take 8) * 2 ^ 64 + (beU ((nonce.drop 8).take 8) + c)) j x
        = encSeg ks nonce (16 * c + j) x := by
  intro x
  induction x with
  | nil => intro j; rfl
  | cons b rest ih =>
    intro j
    simp only [ctrXorFrom, encSeg, ksAt]
    have e1 : beU (nonce.take 8) * 2 ^ 64 + (beU ((nonce.drop 8).take 8) + c) + j / 16
        = beU (nonce.take 8) * 2 ^ 64 + beU ((nonce.drop 8).take 8) + (16 * c + j) / 16 := by
      have h1 : (16 * c + j) / 16 = c + j / 16 := by omega
      omega
    have e2 : j % 16 = (16 * c + j) % 16 := by omega
    rw [e1, e2, ih (j + 1)]
    have e3 : 16 * c + (j + 1) = 16 * c + j + 1 := by omega
    rw [e3]

theorem encryptCTR_eq_encSeg (ks : Nat → Nat → Nat) (nonce : Bytes) (s : Nat) (x : Bytes)
    (h16 : 16 ∣ s) (hiv : beU ((nonce.drop 8).take 8) + s / 16 < 2 ^ 64) :
    encryptCTR ks nonce (s / 16) x = some (encSeg ks nonce s x) := by
  simp only [encryptCTR, deriveCounterIV]
  rw [if_pos hiv]
  simp only [Option.map_some']
  congr 1
  unfold ctrXor
  have h := ctrXorFrom_eq_encSeg ks nonce (s / 16) x 0
  have e : 16 * (s / 16) + 0 = s := by
    rw [Nat.add_zero]
    exact Nat.mul_div_cancel' h16
  rw [e] at h
  exact h

theorem decryptCTR_eq_encSeg (ks : Nat → Nat → Nat) (nonce : Bytes) (s : Nat) (x : Bytes)
    (h16 : 16 ∣ s) (hiv : beU ((nonce.drop 8).take 8) + s / 16 < 2 ^ 64) :
    decryptCTR ks nonce (s / 16) x = some (encSeg ks nonce s x) :=
  encryptCTR_eq_encSeg ks nonce s x h16 hiv

theorem le_div_succ_mul (d B : Nat) (hB : 0 < B) : d ≤ ((d - 1) / B + 1) * B := by
  have h1 := Nat.div_add_mod (d - 1) B
  have h2 : (d - 1) % B < B := Nat.mod_lt _ hB
  set q := (d - 1) / B with hq
  set r := (d - 1) % B with hr
  clear_value q r
  have e : (q + 1) * B = B * q + B := by ring
  omega

theorem zeros_take (a b : Nat) : (zeros b).take a = zeros (min a b) := by
  simp [zeros, List.take_replicate]

theorem zeros_drop (b a : Nat) : (zeros b).drop a = zeros (b - a) := by
  simp [zeros, List.drop_replicate]

theorem ceil16_of_dvd (B : Nat) (h16 : 16 ∣ B) : (B + 15) / 16 * 16 = B := by
  obtain ⟨c, rfl⟩ := h16
  rw [Nat.mul_add_div (by norm_num)]
  omega

end NjsCrypt

namespace NjsCrypt

/-- Content of the write block loop for a write of the whole buffer `D` at
offset 0 over a backing file whose body beyond the already-encrypted
prefix is all zeros: the loop leaves `hdr ++ E(D) ++ zeros m'` and reports
`D.length` bytes written. -/
theorem cryptWriteLoop_content (ks : Nat → Nat → Nat) (B : Nat) (nonce D hdr : Bytes)
    (d : Nat) (hB : 0 < B) (h16 : 16 ∣ B) (hd1 : 1 ≤ d) (hdD : D.length = d)
    (hhdr : hdr.length = 24)
    (hiv : beU ((nonce.drop 8).take 8) + (d + 15) / 16 < 2 ^ 64) :
    ∀ (cnt k m : Nat) (tr : List FsEvent),
      k + cnt = (d - 1) / B + 1 →
      ∃ m' tr', cryptWriteLoop ks B nonce D 0 d cnt k
          (hdr ++ encSeg ks nonce 0 (D.take (min d (k * B))) ++ zeros m) tr
          (min d (k * B))
        = some (hdr ++ encSeg ks nonce 0 D ++ zeros m', tr', d) := by
  intro cnt
  induction cnt with
  | zero =>
    intro k m tr hk
    have hdk : min d (k * B) = d := by
      have h1 := le_div_succ_mul d B hB
      have h2 : ((d - 1) / B + 1) * B ≤ k * B := Nat.mul_le_mul_right B (by omega)
      omega
    refine ⟨m, tr, ?_⟩
    simp only [cryptWriteLoop]
    rw [hdk]
    have hDd : D.take d = D := by
      rw [← hdD]
      exact List.take_length D
    rw [hDd]
  | succ cnt ih =>
    intro k m tr hk
    have hkL : k ≤ (d - 1) / B := by omega
    have hkd : k * B < d := by
      have h1 : k * B ≤ (d - 1) / B * B := Nat.mul_le_mul_right B hkL
      have h2 := Nat.div_mul_le_self (d - 1) B
      omega
    have hmin : min d (k * B) = k * B := by omega
    have h16kB : 16 ∣ k * B := dvd16_mul B h16 k
    have hivk : beU ((nonce.drop 8).take 8) + k * B / 16 < 2 ^ 64 := by
      have h1 : k * B < d := hkd
      omega
    have hnB : min d (k * B + B) - k * B ≤ B := by omega
    have hcrlB : B ≤ (max (k * B + B) d - k * B + 15) / 16 * 16 := by omega
    obtain ⟨m', tr', hres⟩ := ih (k + 1)
      ((max (k * B + B) d - k * B + 15) / 16 * 16 - (min d (k * B + B) - k * B)
        + (m - (max (k * B + B) d - k * B + 15) / 16 * 16))
      (tr ++ [FsEvent.write (24 + k * B)
        (encSeg ks nonce (k * B) ((D.drop (k * B)).take (min d (k * B + B) - k * B))
          ++ zeros ((max (k * B + B) d - k * B + 15) / 16 * 16
              - (min d (k * B + B) - k * B)))])
      (by omega)
    refine ⟨m', tr', ?_⟩
    rw [hmin]
    simp only [cryptWriteLoop, AES_BLOCK_eq, META_SIZE_eq, Nat.zero_max, Nat.sub_self]
    rw [cbs_cancel B h16 k]
    have e15 : (16 : Nat) - 1 = 15 := rfl
    rw [e15]
    have hHP : (hdr ++ encSeg ks nonce 0 (D.take (k * B))).length = 24 + k * B := by
      rw [List.length_append, hhdr, encSeg_length, List.length_take, hdD]
      omega
    have hencBuf : padTo ((max (k * B + B) d - k * B + 15) / 16 * 16)
        (fsRead (hdr ++ encSeg ks nonce 0 (D.take (k * B)) ++ zeros m)
          ((max (k * B + B) d - k * B + 15) / 16 * 16) (24 + k * B))
        = zeros ((max (k * B + B) d - k * B + 15) / 16 * 16) := by
      unfold fsRead
      rw [List.drop_left' hHP, zeros_take, padTo_zeros]
      congr 1
      omega
    rw [hencBuf]
    have hdec := decryptCTR_eq_encSeg ks nonce (k * B)
      (zeros ((max (k * B + B) d - k * B + 15) / 16 * 16)) h16kB hivk
    split
    · rename_i hnone
      rw [hdec] at hnone
      exact absurd hnone (by simp)
    · rename_i plain0 hsome
      rw [hdec] at hsome
      have hp0 : plain0 = encSeg ks nonce (k * B)
          (zeros ((max (k * B + B) d - k * B + 15) / 16 * 16)) :=
        (Option.some.inj hsome).symm
      subst hp0
      rw [encSeg_length, zeros_length, if_neg (lt_irrefl _)]
      have hsrc : ((D.drop (k * B)).take (min d (k * B + B) - k * B)).length
          = min d (k * B + B) - k * B := by
        rw [List.length_take, List.length_drop, hdD]
        omega
      have hplain2 : copyInto
          (encSeg ks nonce (k * B) (zeros ((max (k * B + B) d - k * B + 15) / 16 * 16))) 0
          ((D.drop (k * B)).take (min d (k * B + B) - k * B))
          = (D.drop (k * B)).take (min d (k * B + B) - k * B)
            ++ encSeg ks nonce (k * B + (min d (k * B + B) - k * B))
                (zeros ((max (k * B + B) d - k * B + 15) / 16 * 16
                  - (min d (k * B + B) - k * B))) := by
        rw [copyInto_eq_of_fit _ _ _ (by rw [encSeg_length, zeros_length, hsrc]; omega)]
        simp only [List.take_zero, List.nil_append, Nat.zero_add]
        rw [hsrc, encSeg_drop, zeros_drop]
      rw [hplain2]
      have henc := encryptCTR_eq_encSeg ks nonce (k * B)
        ((D.drop (k * B)).take (min d (k * B + B) - k * B)
          ++ encSeg ks nonce (k * B + (min d (k * B + B) - k * B))
              (zeros ((max (k * B + B) d - k * B + 15) / 16 * 16
                - (min d (k * B + B) - k * B)))) h16kB hivk
      split
      · rename_i hnone2
        rw [henc] at hnone2
        exact absurd hnone2 (by simp)
      · rename_i encNew hsome2
        rw [henc] at hsome2
        have hEN : encNew = encSeg ks nonce (k * B)
            ((D.drop (k * B)).take (min d (k * B + B) - k * B)
              ++ encSeg ks nonce (k * B + (min d (k * B + B) - k * B))
                  (zeros ((max (k * B + B) d - k * B + 15) / 16 * 16
                    - (min d (k * B + B) - k * B)))) :=
          (Option.some.inj hsome2).symm
        subst hEN
        have hencNew : encSeg ks nonce (k * B)
            ((D.drop (k * B)).take (min d (k * B + B) - k * B)
              ++ encSeg ks nonce (k * B + (min d (k * B + B) - k * B))
                  (zeros ((max (k * B + B) d - k * B + 15) / 16 * 16
                    - (min d (k * B + B) - k * B))))
            = encSeg ks nonce (k * B) ((D.drop (k * B)).take (min d (k * B + B) - k * B))
              ++ zeros ((max (k * B + B) d - k * B + 15) / 16 * 16
                  - (min d (k * B + B) - k * B)) := by
          rw [encSeg_append, hsrc, encSeg_involutive]
        rw [hencNew]
        have hxlen : (D.take (k * B)).length = k * B := by
          rw [List.length_take, hdD]
          omega
        have hcat : encSeg ks nonce 0 (D.take (k * B))
            ++ encSeg ks nonce (k * B) ((D.drop (k * B)).take (min d (k * B + B) - k * B))
            = encSeg ks nonce 0 (D.take (min d ((k + 1) * B))) := by
          have e : encSeg ks nonce (k * B)
              ((D.drop (k * B)).take (min d (k * B + B) - k * B))
              = encSeg ks nonce (0 + (D.take (k * B)).length)
                  ((D.drop (k * B)).take (min d (k * B + B) - k * B)) := by
            rw [hxlen, Nat.zero_add]
          rw [e, ← encSeg_append]
          congr 1
          rw [← List.take_add]
          congr 1
          have e2 : (k + 1) * B = k * B + B := by ring
          rw [e2]
          omega
        have hENlen : (encSeg ks nonce (k * B)
            ((D.drop (k * B)).take (min d (k * B + B) - k * B))
            ++ zeros ((max (k * B + B) d - k * B + 15) / 16 * 16
                - (min d (k * B + B) - k * B))).length
            = (max (k * B + B) d - k * B + 15) / 16 * 16 := by
          rw [List.length_append, encSeg_length, hsrc, zeros_length]
          omega
        have hfw : fsWrite (hdr ++ encSeg ks nonce 0 (D.take (k * B)) ++ zeros m)
            (encSeg ks nonce (k * B) ((D.drop (k * B)).take (min d (k * B + B) - k * B))
              ++ zeros ((max (k * B + B) d - k * B + 15) / 16 * 16
                  - (min d (k * B + B) - k * B)))
            (24 + k * B)
            = hdr ++ encSeg ks nonce 0 (D.take (min d ((k + 1) * B)))
              ++ zeros ((max (k * B + B) d - k * B + 15) / 16 * 16
                  - (min d (k * B + B) - k * B)
                  + (m - (max (k * B + B) d - k * B + 15) / 16 * 16)) := by
          rw [fsWrite_eq_of_le _ _ _ (by rw [List.length_append, hHP, zeros_length]; omega)]
          rw [List.take_left' hHP, hENlen, ← hHP, List.drop_append, zeros_drop]
          simp only [List.append_assoc]
          rw [← zeros_add, ← hcat]
          simp only [List.append_assoc]
        rw [hfw]
        have hbw : k * B + (min d (k * B + B) - k * B) = min d ((k + 1) * B) := by
          have e2 : (k + 1) * B = k * B + B := by ring
          rw [e2]
          omega
        rw [hbw]
        exact hres

end NjsCrypt

namespace NjsCrypt

theorem createHeader_eq (rnd : Bytes) (hrnd : rnd.length = 16) :
    createHeader rnd = zeros 8 ++ rnd := by
  unfold createHeader copyInto
  rw [zeros_length, META_SIZE_eq, hrnd]
  rw [zeros_take, zeros_drop]
  norm_num
  rw [← hrnd, List.take_length]
  simp [zeros]

/-- `CryptFS.write` of the whole buffer `D` at offset 0 on a freshly
created backing file: the result is the size field `|D|`, the nonce, the
CTR encryption of `D` and a zero tail, with `|D|` bytes accepted. -/
theorem cryptWrite_create_content (ks : Nat → Nat → Nat) (B : Nat) (rnd rnd2 D : Bytes)
    (hB : 0 < B) (h16 : 16 ∣ B) (hrnd : rnd.length = 16) (hd1 : 1 ≤ D.length)
    (hdlt : (D.length : Int) < 2 ^ 63)
    (hiv : beU ((rnd.drop 8).take 8) + (D.length + 15) / 16 < 2 ^ 64) :
    ∃ m tr, cryptWrite ks B rnd2 (cryptCreate rnd) D 0
      = some (beBytes8 (D.length : Int) ++ (rnd ++ (encSeg ks rnd 0 D ++ zeros m)),
              tr, D.length) := by
  have hclen : (cryptCreate rnd).length = META_SIZE := by
    rw [cryptCreate_eq]
    exact createHeader_length rnd
  have hfr : ¬ (cryptCreate rnd).length < META_SIZE := by omega
  have hnonce : (fsRead (cryptCreate rnd) META_SIZE 0).drop 8 = rnd := by
    have h1 : fsRead (cryptCreate rnd) META_SIZE 0 = cryptCreate rnd := by
      unfold fsRead
      simp [List.take_of_length_le, hclen]
    rw [h1, cryptCreate_eq, createHeader_eq rnd hrnd, List.drop_left' (zeros_length 8)]
  have hS0 : beI (fsRead (cryptCreate rnd) 8 0) = 0 := by
    rw [fsRead_take8, cryptCreate_eq, createHeader_take8]
    decide
  obtain ⟨m', tr', hloop⟩ := cryptWriteLoop_content ks B rnd D (cryptCreate rnd) D.length
    hB h16 hd1 rfl (by rw [hclen]; exact META_SIZE_eq) hiv
    ((D.length - 1) / B + 1) 0 0 [] (by omega)
  have h0take : encSeg ks rnd 0 (D.take (min D.length (0 * B))) = [] := by
    simp [encSeg]
  rw [h0take] at hloop
  simp only [Nat.zero_mul, Nat.min_zero, List.append_nil,
    show zeros 0 = ([] : Bytes) from rfl] at hloop
  refine ⟨m', tr' ++ [FsEvent.write 0 (beBytes8 (D.length : Int))], ?_⟩
  simp only [cryptWrite, if_neg hfr]
  rw [hnonce]
  simp only [Nat.zero_add, Nat.zero_div, Nat.cast_zero]
  rw [lastB_nat D.length B hB hd1]
  have hcnt : ∀ q : Nat, (((q : Nat) : Int) - 0 + 1).toNat = q + 1 := by
    intro q
    omega
  rw [hcnt ((D.length - 1) / B)]
  split
  · rename_i hnone
    rw [hloop] at hnone
    exact absurd hnone (by simp)
  · rename_i f1 tr1 bw heq
    rw [hloop] at heq
    have h3 := Option.some.inj heq
    have h4 : f1 = cryptCreate rnd ++ encSeg ks rnd 0 D ++ zeros m' :=
      (congrArg Prod.fst h3).symm
    have h5 : tr1 = tr' := (congrArg (fun p => p.2.1) h3).symm
    have h6 : bw = D.length := (congrArg (fun p => p.2.2) h3).symm
    subst h4
    subst h5
    subst h6
    rw [hS0]
    have hmax : max (0 : Int) (D.length : Int) = (D.length : Int) :=
      max_eq_right (Int.natCast_nonneg _)
    rw [hmax]
    rw [if_pos ⟨by omega, hdlt⟩]
    have hout : fsWrite (cryptCreate rnd ++ encSeg ks rnd 0 D ++ zeros m')
        (beBytes8 (D.length : Int)) 0
        = beBytes8 (D.length : Int) ++ (rnd ++ (encSeg ks rnd 0 D ++ zeros m')) := by
      rw [fsWrite_zero, beBytes8_length]
      congr 1
      rw [cryptCreate_eq, createHeader_eq rnd hrnd]
      simp only [List.append_assoc]
      rw [List.drop_left' (zeros_length 8)]
    rw [hout]

end NjsCrypt

namespace NjsCrypt

set_option maxRecDepth 8000 in
/-- Content of the read block loop over a backing file holding
`hdr ++ E(D) ++ zeros m`: reading the whole logical interval fills the
output buffer with exactly `D`. -/
theorem cryptReadLoop_content (ks : Nat → Nat → Nat) (B : Nat) (nonce D hdr : Bytes)
    (d m : Nat) (hB : 0 < B) (h16 : 16 ∣ B) (hd1 : 1 ≤ d) (hdD : D.length = d)
    (hhdr : hdr.length = 24)
    (hiv : beU ((nonce.drop 8).take 8) + (d + 15) / 16 < 2 ^ 64) :
    ∀ (cnt k : Nat),
      k + cnt = (d - 1) / B + 1 →
      cryptReadLoop ks B (hdr ++ encSeg ks nonce 0 D ++ zeros m) nonce 0 d cnt k
          (D.take (min d (k * B)) ++ zeros (d - min d (k * B))) (min d (k * B))
        = some D := by
  intro cnt
  induction cnt with
  | zero =>
    intro k hk
    have hdk : min d (k * B) = d := by
      have h1 := le_div_succ_mul d B hB
      have h2 : ((d - 1) / B + 1) * B ≤ k * B := Nat.mul_le_mul_right B (by omega)
      omega
    simp only [cryptReadLoop]
    rw [hdk]
    have hDd : D.take d = D := by
      rw [← hdD]
      exact List.take_length D
    rw [hDd, Nat.sub_self]
    simp [zeros]
  | succ cnt ih =>
    intro k hk
    have hkL : k ≤ (d - 1) / B := by omega
    have hkd : k * B < d := by
      have h1 : k * B ≤ (d - 1) / B * B := Nat.mul_le_mul_right B hkL
      have h2 := Nat.div_mul_le_self (d - 1) B
      omega
    have hmin : min d (k * B) = k * B := by omega
    have h16kB : 16 ∣ k * B := dvd16_mul B h16 k
    have hivk : beU ((nonce.drop 8).take 8) + k * B / 16 < 2 ^ 64 := by
      have h1 : k * B < d := hkd
      omega
    have hxlen : (D.take (k * B)).length = k * B := by
      rw [List.length_take, hdD]
      omega
    have hslicelen : ((D.drop (k * B)).take (min d (k * B + B) - k * B)).length
        = min d (k * B + B) - k * B := by
      rw [List.length_take, List.length_drop, hdD]
      omega
    have hHA : (hdr ++ encSeg ks nonce 0 (D.take (k * B))).length = 24 + k * B := by
      rw [List.length_append, hhdr, encSeg_length, hxlen]
    rw [hmin]
    simp only [cryptReadLoop, AES_BLOCK_eq, META_SIZE_eq, Nat.zero_max, Nat.sub_self,
      Nat.zero_add, Nat.add_sub_cancel_left, List.drop_zero]
    rw [cbs_cancel B h16 k]
    have ebb : k * B + B - k * B = B := by omega
    rw [ebb]
    have e15 : (16 : Nat) - 1 = 15 := rfl
    rw [e15, ceil16_of_dvd B h16]
    have hsplitD : encSeg ks nonce 0 D
        = encSeg ks nonce 0 (D.take (k * B)) ++ encSeg ks nonce (k * B) (D.drop (k * B)) := by
      conv_lhs => rw [← List.take_append_drop (k * B) D]
      rw [encSeg_append, hxlen, Nat.zero_add]
    have hencBuf : padTo B (fsRead (hdr ++ encSeg ks nonce 0 D ++ zeros m) B (24 + k * B))
        = encSeg ks nonce (k * B) ((D.drop (k * B)).take (min d (k * B + B) - k * B))
          ++ zeros (B - (min d (k * B + B) - k * B)) := by
      unfold fsRead
      rw [hsplitD]
      simp only [List.append_assoc]
      rw [← List.append_assoc hdr (encSeg ks nonce 0 (D.take (k * B)))]
      rw [List.drop_left' hHA]
      rw [List.take_append_eq_append_take, encSeg_take, encSeg_length, List.length_drop, hdD]
      rw [zeros_take]
      unfold padTo
      rw [List.length_append, encSeg_length, List.length_take, List.length_drop, hdD,
        zeros_length]
      simp only [List.append_assoc]
      rw [← zeros_add]
      have htake : (D.drop (k * B)).take B = (D.drop (k * B)).take (min d (k * B + B) - k * B) := by
        rw [List.take_eq_take, List.length_drop, hdD]
        omega
      rw [htake]
      congr 2
      omega
    rw [hencBuf]
    have hdec := decryptCTR_eq_encSeg ks nonce (k * B)
      (encSeg ks nonce (k * B) ((D.drop (k * B)).take (min d (k * B + B) - k * B))
        ++ zeros (B - (min d (k * B + B) - k * B))) h16kB hivk
    split
    · rename_i hnone
      rw [hdec] at hnone
      exact absurd hnone (by simp)
    · rename_i plain hsome
      rw [hdec] at hsome
      have hp : plain = encSeg ks nonce (k * B)
          (encSeg ks nonce (k * B) ((D.drop (k * B)).take (min d (k * B + B) - k * B))
            ++ zeros (B - (min d (k * B + B) - k * B))) :=
        (Option.some.inj hsome).symm
      subst hp
      have hplain : encSeg ks nonce (k * B)
          (encSeg ks nonce (k * B) ((D.drop (k * B)).take (min d (k * B + B) - k * B))
            ++ zeros (B - (min d (k * B + B) - k * B)))
          = (D.drop (k * B)).take (min d (k * B + B) - k * B)
            ++ encSeg ks nonce (k * B + (min d (k * B + B) - k * B))
                (zeros (B - (min d (k * B + B) - k * B))) := by
        rw [encSeg_append, encSeg_involutive, encSeg_length, hslicelen]
      rw [hplain]
      rw [List.take_append_eq_append_take, hslicelen, Nat.sub_self, List.take_zero,
        List.append_nil, List.take_of_length_le (le_of_eq hslicelen)]
      have hcop : copyInto (D.take (k * B) ++ zeros (d - k * B)) (k * B)
          ((D.drop (k * B)).take (min d (k * B + B) - k * B))
          = D.take (min d ((k + 1) * B)) ++ zeros (d - min d ((k + 1) * B)) := by
        rw [copyInto_eq_of_fit _ _ _ (by
          rw [List.length_append, hxlen, zeros_length, hslicelen]
          omega)]
        rw [List.take_left' hxlen, hslicelen]
        have hidx : k * B + (min d (k * B + B) - k * B)
            = (D.take (k * B)).length + (min d (k * B + B) - k * B) := by
          rw [hxlen]
        rw [hidx, List.drop_append, zeros_drop]
        rw [← List.take_add]
        have e2 : (k + 1) * B = k * B + B := by ring
        congr 1
        · rw [List.take_eq_take, hdD]
          omega
        · congr 1
          omega
      rw [hcop]
      have hbw : k * B + (min d (k * B + B) - k * B) = min d ((k + 1) * B) := by
        have e2 : (k + 1) * B = k * B + B := by ring
        rw [e2]
        omega
      rw [hbw]
      exact ih (k + 1) (by omega)

end NjsCrypt

namespace NjsCrypt

set_option maxRecDepth 8000 in
/-- `CryptFS.read` of the whole logical interval `[0, |D|)` from a backing
file holding the size field `|D|`, the nonce and the CTR encryption of
`D` (plus residual zero bytes) returns exactly `D`. -/
theorem cryptRead_content (ks : Nat → Nat → Nat) (B : Nat) (rnd D : Bytes) (m : Nat)
    (hB : 0 < B) (h16 : 16 ∣ B) (hrnd : rnd.length = 16) (hd1 : 1 ≤ D.length)
    (hdlt : (D.length : Int) < 2 ^ 63)
    (hiv : beU ((rnd.drop 8).take 8) + (D.length + 15) / 16 < 2 ^ 64) :
    cryptRead ks B (beBytes8 (D.length : Int) ++ (rnd ++ (encSeg ks rnd 0 D ++ zeros m)))
      D.length 0 = some D := by
  have hFlen : (beBytes8 (D.length : Int) ++ (rnd ++ (encSeg ks rnd 0 D ++ zeros m))).length
      = 24 + D.length + m := by
    simp only [List.length_append, beBytes8_length, hrnd, encSeg_length, zeros_length]
    omega
  have hfr : ¬ (beBytes8 (D.length : Int) ++ (rnd ++ (encSeg ks rnd 0 D ++ zeros m))).length
      < META_SIZE := by
    rw [hFlen, META_SIZE_eq]
    omega
  have hS : beI (fsRead (beBytes8 (D.length : Int)
      ++ (rnd ++ (encSeg ks rnd 0 D ++ zeros m))) 8 0) = (D.length : Int) := by
    rw [fsRead_take8, List.take_left' (beBytes8_length _)]
    exact beI_beBytes8 _ (by omega) hdlt
  have h24 : (beBytes8 (D.length : Int) ++ (rnd ++ (encSeg ks rnd 0 D ++ zeros m))).take
      META_SIZE = beBytes8 (D.length : Int) ++ rnd := by
    rw [META_SIZE_eq, List.take_append_eq_append_take,
      List.take_of_length_le (by rw [beBytes8_length]; omega), beBytes8_length]
    norm_num
    rw [List.take_append_eq_append_take, List.take_of_length_le (le_of_eq hrnd), hrnd,
      Nat.sub_self, List.take_zero, List.append_nil]
  have hnonce : (fsRead (beBytes8 (D.length : Int)
      ++ (rnd ++ (encSeg ks rnd 0 D ++ zeros m))) META_SIZE 0).drop 8 = rnd := by
    rw [show fsRead (beBytes8 (D.length : Int)
        ++ (rnd ++ (encSeg ks rnd 0 D ++ zeros m))) META_SIZE 0
      = (beBytes8 (D.length : Int) ++ (rnd ++ (encSeg ks rnd 0 D ++ zeros m))).take META_SIZE
      from by simp [fsRead]]
    rw [h24, List.drop_left' (beBytes8_length _)]
  simp only [cryptRead, if_neg hfr]
  rw [hS, hnonce]
  simp only [Nat.cast_zero, Int.sub_zero, Int.toNat_natCast, Nat.min_self, zero_add,
    Nat.zero_div]
  rw [if_neg (by omega : ¬ ((D.length : Int) ≤ (0 : Int)))]
  rw [lastB_nat D.length B hB hd1]
  have hcnt : ∀ q : Nat, (((q : Nat) : Int) + 1).toNat = q + 1 := by
    intro q
    omega
  rw [hcnt ((D.length - 1) / B)]
  have hloop := cryptReadLoop_content ks B rnd D (beBytes8 (D.length : Int) ++ rnd)
    D.length m hB h16 hd1 rfl
    (by rw [List.length_append, beBytes8_length, hrnd])
    hiv ((D.length - 1) / B + 1) 0 (by omega)
  rw [show ((beBytes8 (D.length : Int) ++ rnd) ++ encSeg ks rnd 0 D) ++ zeros m
      = beBytes8 (D.length : Int) ++ (rnd ++ (encSeg ks rnd 0 D ++ zeros m))
    from by simp [List.append_assoc]] at hloop
  simp only [Nat.zero_mul, Nat.min_zero, List.take_zero, List.nil_append,
    Nat.sub_zero] at hloop
  exact hloop

end NjsCrypt

namespace NjsCrypt

set_option maxRecDepth 8000 in
/-- C1: for any byte sequence `D` of length at most 4 MiB, create on a
fresh path followed by a write of `D` at offset 0 and a read of
`[0, |D|)` through the encrypted store returns exactly `D` (for every
AES-256-CTR keystream, i.e. every key, and every 16-byte nonce whose low
64-bit counter half does not overflow within `ceil(|D|/16)` blocks — the
`writeBigUInt64BE` overflow that `_deriveCounterIV` would throw on). -/
theorem c1_roundtrip (ks : Nat → Nat → Nat) (B : Nat) (rnd rnd2 D : Bytes)
    (hB : 0 < B) (h16 : 16 ∣ B) (hrnd : rnd.length = 16)
    (hd4 : D.length ≤ 4 * 1024 * 1024)
    (hiv : beU ((rnd.drop 8).take 8) + (D.length + 15) / 16 < 2 ^ 64) :
    ∃ out, cryptWrite ks B rnd2 (cryptCreate rnd) D 0 = some out
      ∧ cryptRead ks B out.1 D.length 0 = some D := by
  have hclen : (cryptCreate rnd).length = META_SIZE := by
    rw [cryptCreate_eq]
    exact createHeader_length rnd
  have hfr : ¬ (cryptCreate rnd).length < META_SIZE := by omega
  have hS0 : beI (fsRead (cryptCreate rnd) 8 0) = 0 := by
    rw [fsRead_take8, cryptCreate_eq, createHeader_take8]
    decide
  rcases Nat.eq_zero_or_pos D.length with h0 | h1
  · have hD : D = [] := List.length_eq_zero.mp h0
    subst hD
    have hw : cryptWrite ks B rnd2 (cryptCreate rnd) [] 0
        = some (fsWrite (cryptCreate rnd) (beBytes8 0) 0, [FsEvent.write 0 (beBytes8 0)], 0) := by
      simp only [cryptWrite, if_neg hfr]
      split
      · rename_i hnone
        simp only [List.length_nil, Nat.add_zero, Nat.zero_add, Nat.cast_zero, zero_sub,
          Nat.zero_div] at hnone
        rw [neg_one_fdiv B hB] at hnone
        rw [show ((-1 : Int) - 0 + 1).toNat = 0 from by decide] at hnone
        simp only [cryptWriteLoop] at hnone
        exact absurd hnone (by simp)
      · rename_i f1 tr1 bw heq
        simp only [List.length_nil, Nat.add_zero, Nat.zero_add, Nat.cast_zero, zero_sub,
          Nat.zero_div] at heq
        rw [neg_one_fdiv B hB] at heq
        rw [show ((-1 : Int) - 0 + 1).toNat = 0 from by decide] at heq
        simp only [cryptWriteLoop] at heq
        have h3 := Option.some.inj heq
        injection h3 with h4 h5
        injection h5 with h5 h6
        subst h4
        subst h5
        subst h6
        rw [hS0]
        simp only [List.length_nil, Nat.add_zero, Nat.cast_zero, max_self]
        rw [if_pos ⟨by norm_num, by norm_num⟩]
        simp
    have hr : cryptRead ks B (fsWrite (cryptCreate rnd) (beBytes8 0) 0) 0 0 = some [] := by
      have hFlen : (fsWrite (cryptCreate rnd) (beBytes8 0) 0).length = 24 := by
        rw [fsWrite_length, hclen, beBytes8_length, META_SIZE_eq]
        omega
      have hfr2 : ¬ (fsWrite (cryptCreate rnd) (beBytes8 0) 0).length < META_SIZE := by
        rw [hFlen, META_SIZE_eq]
        omega
      have hSF : beI (fsRead (fsWrite (cryptCreate rnd) (beBytes8 0) 0) 8 0) = 0 := by
        rw [fsRead_take8, sizeField_take]
        decide
      simp only [cryptRead, if_neg hfr2]
      rw [hSF]
      rw [if_pos (by simp : (0 : Int) ≤ ((0 : Nat) : Int))]
    exact ⟨_, hw, hr⟩
  · have hdlt : (D.length : Int) < 2 ^ 63 := by
      have h2 : (D.length : Int) ≤ 4 * 1024 * 1024 := by exact_mod_cast hd4
      omega
    obtain ⟨m, tr, hw⟩ := cryptWrite_create_content ks B rnd rnd2 D hB h16 hrnd h1 hdlt hiv
    exact ⟨_, hw, cryptRead_content ks B rnd D m hB h16 hrnd h1 hdlt hiv⟩

theorem c1_roundtrip_w :
    ∃ out, cryptWrite (fun _ _ => 0) 16 (zeros 16) (cryptCreate (zeros 16))
        [104, 101, 108, 108, 111] 0 = some out
      ∧ cryptRead (fun _ _ => 0) 16 out.1 ([104, 101, 108, 108, 111] : Bytes).length 0
        = some [104, 101, 108, 108, 111] :=
  c1_roundtrip (fun _ _ => 0) 16 (zeros 16) (zeros 16) [104, 101, 108, 108, 111]
    (by decide) (by decide) (by decide) (by decide) (by decide)

end NjsCrypt
